import Mathlib

/-!
Verification of the name-reconciliation scripts of the `planter` repository.

The Python sources are shallowly embedded: each relevant function is
translated to an executable Lean definition over `List Char` / `String`,
`Option` and `Int`, and the specification claims are settled as theorems
about those definitions.
-/

namespace Planter

/-! ## Character classes

`isPySpace` models Python's `\s` / `str.split()` / `str.strip()` whitespace
(the ASCII whitespace characters).  `isWordChar` models Python's `\w`
(ASCII approximation: letters, digits, underscore); the scientific-name
inputs of the scripts are ASCII. -/

def isPySpace (c : Char) : Bool :=
  c == ' ' || c == '\t' || c == '\n' || c == '\r' || c == '\x0b' || c == '\x0c'

def isWordChar (c : Char) : Bool :=
  c.isAlphanum || c == '_'

/-- Character class of `re.sub(r"[Ã—x]\s*", "", s)` in
`enrich_gbif_dwca.py::canon_binomial` (the file literally contains the
mojibake characters U+00C3 and U+2014 plus `x`). -/
def isHybridDwca (c : Char) : Bool :=
  c == 'Ã' || c == '—' || c == 'x'

/-- Character class of `re.sub(r"[×x]\s*", "", s)` in
`plants_ingest.py::_canon_binomial_only` (U+00D7 plus `x`). -/
def isHybridIngest (c : Char) : Bool :=
  c == '×' || c == 'x'

/-! ## `re.sub(r"[..]\s*", "", s)`

The pattern is a single character of the class followed by a greedy run of
whitespace; global substitution by `""` is a left-to-right scan that drops
each class character together with the whitespace run following it.
`skipping` records whether we are inside such a whitespace run. -/

def removeHybridAux (cls : Char → Bool) (skipping : Bool) : List Char → List Char
  | [] => []
  | c :: rest =>
    if cls c then removeHybridAux cls true rest
    else if skipping && isPySpace c then removeHybridAux cls true rest
    else c :: removeHybridAux cls false rest

def removeHybrid (cls : Char → Bool) (l : List Char) : List Char :=
  removeHybridAux cls false l

/-! ## `re.sub(r"\b(subsp\.|ssp\.|var\.|f\.|cv\.)\b.*", "", s, flags=re.I)`

The alternatives, as lowercase character lists.  A match at a position
requires: a word boundary before the alternative (the alternative starts
with a word character, so the previous character must be a non-word
character or the string start), the alternative case-insensitively, and a
word boundary after its final `.` (so the next character must exist and be
a word character).  `.*` then consumes the remainder of the line. -/

def markers : List (List Char) :=
  [['s','u','b','s','p','.'], ['s','s','p','.'], ['v','a','r','.'], ['f','.'], ['c','v','.']]

/-- Case-insensitive match of marker `m` against the front of `l`;
returns the remainder of `l` after the marker. -/
def ciMatch : List Char → List Char → Option (List Char)
  | [], l => some l
  | _ :: _, [] => none
  | mc :: ms, c :: cs => if c.toLower == mc then ciMatch ms cs else none

def headIsWord : List Char → Bool
  | [] => false
  | c :: _ => isWordChar c

/-- Try the alternatives in order at the current position (Python tries the
next alternative when the trailing `\b` of an earlier one fails).
Returns the remainder of the text after the matched marker. -/
def tryFrom : List (List Char) → List Char → Option (List Char)
  | [], _ => none
  | m :: ms, l =>
    match ciMatch m l with
    | some rest => if headIsWord rest then some rest else tryFrom ms l
    | none => tryFrom ms l

def tryMarkers (l : List Char) : Option (List Char) :=
  tryFrom markers l

/-- One pass of the global substitution.  `deleting` is true while inside a
match's `.*` (which stops before a newline); `prevWord` records whether the
previous unconsumed character was a word character (for the leading `\b`).
When a match fires, the marker and the rest of the line are consumed; the
scan resumes at the newline (which cannot begin a marker, so the boundary
flag there is immaterial). -/
def scanTruncAux : Bool → Bool → List Char → List Char
  | _, _, [] => []
  | true, prevWord, c :: rest =>
    if c == '\n' then c :: scanTruncAux false false rest
    else scanTruncAux true prevWord rest
  | false, prevWord, c :: rest =>
    if !prevWord && (tryMarkers (c :: rest)).isSome then scanTruncAux true prevWord rest
    else c :: scanTruncAux false (isWordChar c) rest

def scanTrunc (l : List Char) : List Char :=
  scanTruncAux false false l

/-! ## `str.strip`, `str.split`, `" ".join` -/

def pystrip (l : List Char) : List Char :=
  ((l.dropWhile isPySpace).reverse.dropWhile isPySpace).reverse

/-- `str.split()` with no argument: split on whitespace runs, no empty
tokens.  `cur` accumulates the current token in reverse. -/
def pysplitAux (cur : List Char) : List Char → List (List Char)
  | [] => if cur.isEmpty then [] else [cur.reverse]
  | c :: rest =>
    if isPySpace c then
      if cur.isEmpty then pysplitAux [] rest else cur.reverse :: pysplitAux [] rest
    else pysplitAux (c :: cur) rest

def pysplit (l : List Char) : List (List Char) :=
  pysplitAux [] l

def joinSpace (parts : List (List Char)) : List Char :=
  List.intercalate [' '] parts

/-! ## The two canonicalizers (identical up to the hybrid-marker class) -/

/-- Shared body of `canon_binomial` / `_canon_binomial_only`:
`if not s: return ""`, the two `re.sub`s, `parts = s.strip().split()`,
`" ".join(parts[:2]) if len(parts) >= 2 else s.strip()`. -/
def canonWith (cls : Char → Bool) (l : List Char) : List Char :=
  if l.isEmpty then [] else
  let t1 := removeHybrid cls l
  let t2 := scanTrunc t1
  let parts := pysplit (pystrip t2)
  if 2 ≤ parts.length then joinSpace (parts.take 2) else pystrip t2

/-- `enrich_gbif_dwca.py::canon_binomial`. -/
def canon_binomial (l : List Char) : List Char :=
  canonWith isHybridDwca l

/-- `plants_ingest.py::_canon_binomial_only`. -/
def canon_binomial_only (l : List Char) : List Char :=
  canonWith isHybridIngest l

def canonBinomialStr (s : String) : String :=
  String.mk (canon_binomial s.data)

def canonBinomialOnlyStr (s : String) : String :=
  String.mk (canon_binomial_only s.data)

example : canonBinomialStr "Saintpaulia ionantha subsp. grandifolia" = "Saintpaulia ionantha" := by decide
example : canonBinomialStr "" = "" := by decide
example : canonBinomialStr "Buxus var. alba" = "Buus var." := by decide
example : canonBinomialOnlyStr "Buxus sempervirens" = "Buus sempervirens" := by decide
example : canonBinomialStr "Rosa subsp. alba" = "Rosa subsp." := by decide
example : canonBinomialStr "Ilex x aquifolium" = "Ileaquifolium" := by decide

/-! ## String helpers (Python `str.lower` / `str.upper` on ASCII data) -/

def lowerStr (s : String) : String :=
  String.mk (s.data.map Char.toLower)

def upperStr (s : String) : String :=
  String.mk (s.data.map Char.toUpper)

def pystripStr (s : String) : String :=
  String.mk (pystrip s.data)

def startsWith : List Char → List Char → Bool
  | [], _ => true
  | _ :: _, [] => false
  | p :: ps, c :: cs => p == c && startsWith ps cs

/-- Python's `pat in s` substring test. -/
def containsSub (pat : List Char) : List Char → Bool
  | [] => pat.isEmpty
  | c :: rest => startsWith pat (c :: rest) || containsSub pat rest

def containsSubStr (pat s : String) : Bool :=
  containsSub pat.data s.data

/-- Python's `s.endswith(pat)`. -/
def endsWithStr (pat s : String) : Bool :=
  startsWith pat.data.reverse s.data.reverse

/-! ## `enrich_gbif_dwca.py::_pick_score` and `_best_locale` -/

def englishCountries : List String := ["US", "GB", "CA", "AU", "NZ"]

/-- The rank-label test of `_pick_score`: `low` is the lowercased name. -/
def looksLikeRankLabel (low : String) : Bool :=
  containsSubStr " family" low || endsWithStr " family" low
    || containsSubStr " genus" low || containsSubStr " order" low
    || containsSubStr " group" low || containsSubStr " aggregate" low
    || containsSubStr " complex" low

/-- `enrich_gbif_dwca.py::_pick_score(name, preferred, lang, country)`.
`preferred` is `Optional[bool]`; `if preferred:` is true only for `True`. -/
def pick_score (name : String) (preferred : Option Bool) (lang : String)
    (country : Option String) : Int :=
  let s0 : Int := 0
  let s1 := if lang == "en" || lang == "eng" then s0 + 10 else s0
  let s2 := if preferred == some true then s1 + 5 else s1
  let s3 := if englishCountries.contains (upperStr (country.getD "")) then s2 + 2 else s2
  let s4 := s3 + max 0 (6 - ((pysplit name.data).length : Int))
  if looksLikeRankLabel (lowerStr name) then s4 - 3 else s4

/-- `enrich_gbif_dwca.py::_best_locale(lang, country)`. -/
def best_locale (lang : String) (country : Option String) : String :=
  let lang2 := if lang == "en" || lang == "eng" then "en"
               else if lang == "" then "en" else lang
  let cc := upperStr (country.getD "")
  if lang2 == "en" && cc ≠ "" then lang2 ++ "-" ++ cc else lang2

/-! ## `plants_ingest.py::_pick_best_common_name` -/

/-- One GBIF vernacular-name record, as consumed by
`_pick_best_common_name` (`v.get(...)` on the JSON dict). -/
structure Vern where
  vernacularName : Option String
  language : Option String
  preferred : Option Bool
  country : Option String
deriving DecidableEq

/-- Inner `lang_code(v)`: lowercase, map `"eng"` to `"en"` (the Python
code's `len(l) == 2` branch and its fall-through both return `l`). -/
def lang_code (v : Vern) : String :=
  let l := lowerStr (v.language.getD "")
  if l == "eng" then "en" else l

/-- Inner `score(v)` of `_pick_best_common_name`.  Note: no rank-label
penalty here, unlike `_pick_score`. -/
def pbcn_score (v : Vern) : Int :=
  let lang := lang_code v
  let b0 : Int := 0
  let b1 := if lang == "en" then b0 + 10 else b0
  let b2 := if v.preferred == some true then b1 + 5 else b1
  let b3 := if englishCountries.contains (upperStr (v.country.getD "")) then b2 + 2 else b2
  b3 + max 0 (6 - ((pysplit (v.vernacularName.getD "").data).length : Int))

/-- Python truthiness of `v.get("vernacularName")`. -/
def vnTruthy (v : Vern) : Bool :=
  v.vernacularName.getD "" ≠ ""

/-- `english if english else [v for v in vns if v.get("vernacularName")]`. -/
def pickPool (vns : List Vern) : List Vern :=
  let english := vns.filter (fun v => lang_code v == "en" && vnTruthy v)
  if english.isEmpty then vns.filter vnTruthy else english

/-- Python `max(pool, key=f)`: the first element of maximal key. -/
def pymaxBy (f : α → Int) : List α → Option α
  | [] => none
  | x :: xs => some (xs.foldl (fun acc y => if f y > f acc then y else acc) x)

/-- `_pick_best_common_name(vns) -> (name, locale)`. -/
def pick_best_common_name (vns : List Vern) : Option String × Option String :=
  if vns.isEmpty then (none, none) else
  let pool := pickPool vns
  if pool.isEmpty then (none, none) else
  match pymaxBy pbcn_score pool with
  | none => (none, none)
  | some best =>
    let lc := lang_code best
    let lang : Option String := if lc == "en" then some "en"
                                else if lc == "" then none else some lc
    let country := upperStr (best.country.getD "")
    let locale : Option String :=
      match lang with
      | some lg => if lg == "en" && country ≠ "" then some (lg ++ "-" ++ country) else some lg
      | none => none
    let name : Option String :=
      match best.vernacularName with
      | some n => if n == "" then none else some (pystripStr n)
      | none => none
    (name, locale)

/-! ## Synonym rows and the client-side dedup of `_parallel_upsert_synonyms`
(both scripts; they differ only in the default `kind`). -/

structure SynRow where
  plant_id : String
  name : Option String
  kind : Option String
  locale : Option String
deriving DecidableEq

/-- The dedup key `(r["plant_id"], (r["name"] or "").lower(),
r.get("kind") or default, r.get("locale") or "")`. -/
def synKey (dflt : String) (r : SynRow) : String × String × String × String :=
  (r.plant_id,
   lowerStr (r.name.getD ""),
   (if r.kind.getD "" == "" then dflt else r.kind.getD ""),
   r.locale.getD "")

def dedupAux (dflt : String) (seen : List (String × String × String × String)) :
    List SynRow → List SynRow
  | [] => []
  | r :: rest =>
    let k := synKey dflt r
    if k ∈ seen then dedupAux dflt seen rest
    else r :: dedupAux dflt (k :: seen) rest

/-- Client-side de-duplication within one outgoing batch. -/
def dedupRows (dflt : String) (rows : List SynRow) : List SynRow :=
  dedupAux dflt [] rows

/-! ## Per-row staging logic of `enrich_gbif_dwca.py::enrich_from_backbone`
(step 5 loop body, from the gate checks to the `syns`/`updates` appends;
cross-row `seen_syn` dedup is modelled separately by `dedupRows`). -/

/-- Result of resolving the best vernacular for a row: `(best_name, best_locale)`. -/
def stage_row (force setDisplay : Bool) (pid : String)
    (sciRaw nameRaw : Option String) (best : Option (String × String)) :
    Option SynRow × Option (String × String) :=
  let sci := pystripStr (sciRaw.getD "")
  if sci == "" then (none, none) else
  let currentName := pystripStr (nameRaw.getD "")
  match best with
  | none => (none, none)
  | some (bn, loc) =>
    if lowerStr (pystripStr bn) == lowerStr sci then (none, none) else
    if !force && currentName ≠ "" && lowerStr (pystripStr currentName) ≠ lowerStr (pystripStr sci)
    then (none, none) else
    (some { plant_id := pid, name := some bn, kind := some "common",
            locale := some (if loc == "" then "en" else loc) },
     if setDisplay then some (pid, bn) else none)

/-- The `need` gate of `plants_ingest.py::enrich_inat`: only rows whose
display name equals the scientific name (after strip) are processed at all. -/
def inat_need (sciRaw nameRaw : Option String) : Bool :=
  sciRaw.getD "" ≠ "" && nameRaw.getD "" ≠ ""
    && pystripStr (sciRaw.getD "") == pystripStr (nameRaw.getD "")

example :
    pick_best_common_name
      [⟨some "African Violet", some "en", some true, some "US"⟩,
       ⟨some "Violeta Africana", some "es", some false, none⟩]
      = (some "African Violet", some "en-US") := by decide

example : best_locale "" (some "US") = "en-US" := by decide
example : pick_best_common_name [⟨some "Kudzu", none, none, none⟩] = (some "Kudzu", none) := by decide
example : pick_score "rose family" none "en" none = 11 := by decide
example : pbcn_score ⟨some "rose family", some "en", none, none⟩ = 14 := by decide

/-! ## `plants_ingest.py::_fetch_scientific_synonyms`

The `while i < n` loop over `.in_()` chunks, with the 414 shrink-and-retry
logic (identical in `_safe_in_select`).  A request is determined by the
window start and the current chunk size, so the backend is modelled as a
deterministic oracle on `(i, size)`. -/

inductive FetchResult where
  | ok (rows : List (String × Option String))
  | tooLarge
  | otherErr
deriving DecidableEq

/-- `out[pid]` of the `defaultdict(list)`. -/
def outGet (out : List (String × List String)) (pid : String) : List String :=
  match out.find? (fun p => p.1 == pid) with
  | some p => p.2
  | none => []

def outApp (out : List (String × List String)) (pid : String) (nm : String) :
    List (String × List String) :=
  match out with
  | [] => [(pid, [nm])]
  | p :: rest => if p.1 == pid then (p.1, p.2 ++ [nm]) :: rest else p :: outApp rest pid nm

/-- `nm = (r.get("name") or "").strip(); if nm and len(out[pid]) < per_plant:
out[pid].append(nm)`. -/
def addRow (perPlant : Nat) (out : List (String × List String))
    (row : String × Option String) : List (String × List String) :=
  let nm := pystripStr (row.2.getD "")
  if nm ≠ "" && (outGet out row.1).length < perPlant then outApp out row.1 nm else out

structure FetchState where
  out : List (String × List String)
  dropped : List Nat
  submitted : Nat
  trace : List (Nat × Nat)
deriving DecidableEq

/-- The loop of `_fetch_scientific_synonyms`: on success advance the window
by `size`; on a 414-class failure halve the size while it exceeds 10, drop
to 1 while it exceeds 1, and at size 1 skip the single id; on any other
failure log and advance the window.  `trace` records each attempted
`(i, size)` request. -/
def fetchLoop (req : Nat → Nat → FetchResult) (perPlant : Nat) (n : Nat) :
    Nat → Nat → FetchState → FetchState
  | i, size, st =>
    if hin : i < n then
      if hsz : 0 < size then
        let st1 : FetchState := { st with trace := st.trace ++ [(i, size)] }
        match req i size with
        | FetchResult.ok rows =>
          fetchLoop req perPlant n (i + size) size
            { st1 with out := rows.foldl (addRow perPlant) st1.out,
                       submitted := st1.submitted + min size (n - i) }
        | FetchResult.tooLarge =>
          if 10 < size then fetchLoop req perPlant n i (size / 2) st1
          else if 1 < size then fetchLoop req perPlant n i 1 st1
          else fetchLoop req perPlant n (i + 1) size { st1 with dropped := st1.dropped ++ [i] }
        | FetchResult.otherErr =>
          fetchLoop req perPlant n (i + size) size st1
      else st
    else st
termination_by i size _ => (n - i, size)
decreasing_by
· exact Prod.Lex.left _ _ (by omega)
· exact Prod.Lex.right _ (by omega)
· exact Prod.Lex.right _ (by omega)
· exact Prod.Lex.left _ _ (by omega)
· exact Prod.Lex.left _ _ (by omega)

def fetch_scientific_synonyms (req : Nat → Nat → FetchResult) (perPlant inMax n : Nat) :
    FetchState :=
  fetchLoop req perPlant n 0 (max 1 inMax) ⟨[], [], 0, []⟩

/-! ## `plants_ingest.py::enrich_inat::resolve_one`

The synonym fallback: try the scientific name, then each fetched synonym,
stopping at the first usable (non-empty, not case-insensitively equal to
the scientific name) common name.  The iNat lookup composed with
`_inat_pick_en_common` is abstracted as `attempt`.  The returned `Nat`
counts resolution attempts. -/

/-- `common and not same_as_scientific(common)`. -/
def usableCommon (sci : String) (c : Option String) : Bool :=
  match c with
  | some s => s ≠ "" && lowerStr (pystripStr s) ≠ lowerStr (pystripStr sci)
  | none => false

def loopSyns (attempt : String → Option String) (sci : String) :
    Option String → List String → Option String × Nat
  | common, [] => (common, 0)
  | _, nm :: rest =>
    let c := attempt nm
    if usableCommon sci c then (c, 1)
    else
      let r := loopSyns attempt sci c rest
      (r.1, r.2 + 1)

def resolve_one (attempt : String → Option String) (sci : String) (syns : List String) :
    Option String × Nat :=
  let c0 := attempt sci
  if usableCommon sci c0 then (c0, 1)
  else
    let r := loopSyns attempt sci c0 syns
    (r.1, r.2 + 1)

/-! ## `enrich_gbif_dwca.py::iter_tsv_select` and the Taxon.tsv row loop -/

/-- Python `str.split(sep)` for a single-character separator: keeps empty
fields. -/
def splitOnChar (sep : Char) : List Char → List (List Char)
  | [] => [[]]
  | c :: rest =>
    match splitOnChar sep rest with
    | [] => [[]]
    | t :: ts => if c == sep then [] :: t :: ts else (c :: t) :: ts

/-- `line.rstrip("\r\n")`. -/
def rstripCRLF (l : List Char) : List Char :=
  (l.reverse.dropWhile (fun c => c == '\r' || c == '\n')).reverse

/-- `low = {c.lower(): i for i, c in enumerate(cols)}` then `low.get(w.lower())`:
the last column with a given lowercased name wins. -/
def lookupLow (cols : List String) (w : String) : Option Nat :=
  ((cols.enum.filter (fun p => lowerStr p.2 == lowerStr w)).getLast?).map (·.1)

def buildIdx (cols wanted : List String) : List (String × Nat) :=
  wanted.filterMap (fun w => (lookupLow cols w).map (fun i => (w, i)))

/-- `{w: (cells[i] if i < len(cells) else "") for w, i in idx.items()}`. -/
def rowOf (idx : List (String × Nat)) (cells : List String) : List (String × String) :=
  idx.map (fun p => (p.1, (cells.get? p.2).getD ""))

/-- `iter_tsv_select(path, wanted)`: `content` is the file's lines (line
terminators already split off; `rstrip("\r\n")` is applied as in the code).
The first line is the header; every following line yields a row dict. -/
def iter_tsv_select (content : List String) (wanted : List String) :
    List (List (String × String)) :=
  match content with
  | [] => []
  | header :: rest =>
    let cols := (splitOnChar '\t' (rstripCRLF header.data)).map String.mk
    let idx := buildIdx cols wanted
    rest.map (fun line => rowOf idx ((splitOnChar '\t' (rstripCRLF line.data)).map String.mk))

/-- `_get(row, *keys)`: exact key first, then case-insensitive (where the
last row key with a given lowercased form wins). -/
def rowGet (row : List (String × String)) (keys : List String) : Option String :=
  match keys.findSome? (fun k => (row.find? (fun p => p.1 == k)).map (·.2)) with
  | some v => some v
  | none => keys.findSome? (fun k =>
      (row.reverse.find? (fun p => lowerStr p.1 == lowerStr k)).map (·.2))

/-- Python `int(s)` on strings: optional surrounding whitespace, optional
sign, decimal digits with single underscores between digits. -/
def pyIntDigits : Nat → List Char → Option Nat
  | acc, [] => some acc
  | acc, '_' :: c :: rest =>
    if c.isDigit then pyIntDigits (acc * 10 + (c.toNat - 48)) rest else none
  | _, ['_'] => none
  | acc, c :: rest =>
    if c.isDigit then pyIntDigits (acc * 10 + (c.toNat - 48)) rest else none

def pyIntNat : List Char → Option Nat
  | [] => none
  | c :: rest => if c.isDigit then pyIntDigits (c.toNat - 48) rest else none

def pyInt (s : String) : Option Int :=
  match pystrip s.data with
  | '+' :: rest => (pyIntNat rest).map Int.ofNat
  | '-' :: rest => (pyIntNat rest).map (fun m => -(m : Int))
  | l => (pyIntNat l).map Int.ofNat

/-- Body of the `for row in iter_tsv_select(taxon_path, ...)` loop in
`enrich_from_backbone`: kingdom filter, species-rank filter, name filter
against the needed canonical names, and integer parse of the identifier.
Returns the `(canonical name, key)` contribution, or `none` when the row
is skipped. -/
def processTaxonRow (needNames : List String) (row : List (String × String)) :
    Option (String × Int) :=
  let kingdom := lowerStr (pystripStr ((rowGet row ["kingdom"]).getD ""))
  if kingdom ≠ "" && kingdom ≠ "plantae" then none else
  let rank := lowerStr (pystripStr ((rowGet row ["taxonRank", "rank"]).getD ""))
  if rank ≠ "species" then none else
  let c1 := (rowGet row ["canonicalName"]).getD ""
  let c2 := (rowGet row ["scientificName"]).getD ""
  let sci := pystripStr (if c1 ≠ "" then c1 else c2)
  if sci == "" then none else
  let cn := canonBinomialStr sci
  if !(needNames.contains cn) then none else
  let rowKey := (rowGet row ["taxonID", "taxonId", "usageID", "usageKey"]).getD ""
  if rowKey == "" then none else
  match pyInt rowKey with
  | none => none
  | some k => some (cn, k)

/-- `if k not in name_to_keys[cn]: name_to_keys[cn].append(k)`. -/
def addKey (m : List (String × List Int)) (cn : String) (k : Int) :
    List (String × List Int) :=
  match m with
  | [] => [(cn, [k])]
  | p :: rest =>
    if p.1 == cn then (if p.2.contains k then p :: rest else (p.1, p.2 ++ [k]) :: rest)
    else p :: addKey rest cn k

/-- The whole Taxon.tsv streaming pass: fold the per-row step over the rows. -/
def buildNameToKeys (needNames : List String) (rows : List (List (String × String))) :
    List (String × List Int) :=
  rows.foldl (fun m row =>
    match processTaxonRow needNames row with
    | some p => addKey m p.1 p.2
    | none => m) []

/-! ## Predicates for reasoning about the truncation regex -/

/-- All characters that occur in the marker alternatives (lowercase). -/
def markerCharSet : List Char := ['s', 'u', 'b', 'p', '.', 'v', 'a', 'r', 'f', 'c']

/-- A character that can neither participate in a marker match (its
lowercase form is not a marker character) nor serve as the trailing word
character. -/
def blockedChar (c : Char) : Bool :=
  !(markerCharSet.contains c.toLower) && !(isWordChar c)

/-- A list that cannot extend a marker match across its start: empty, or
headed by a blocked character. -/
def HBlock (t : List Char) : Prop :=
  t = [] ∨ ∃ d t0, t = d :: t0 ∧ blockedChar d = true

/-- The leading `\b` relative to flag `p` (`p` = the previous character is
a word character): satisfied at the very start when `p` is false, or right
after a non-word character. -/
def BoundaryRel (p : Bool) (pre : List Char) : Prop :=
  (pre = [] ∧ p = false) ∨ ∃ d, pre.getLast? = some d ∧ isWordChar d = false

/-- Some position of `l` carries a marker match: a boundary-satisfying
prefix followed by a suffix on which an alternative matches with its
trailing word character. -/
def OccursRel (p : Bool) (l : List Char) : Prop :=
  ∃ pre suf, l = pre ++ suf ∧ BoundaryRel p pre ∧ (tryMarkers suf).isSome = true

/-- The scanner's output agrees with its input up to a removed span: either
unchanged, or a prefix of the input followed by an empty or blocked tail. -/
def SpliceRel (l out : List Char) : Prop :=
  out = l ∨ ∃ a t, out = a ++ t ∧ (∃ b, l = a ++ b) ∧ HBlock t

/-! ## Concrete instances used by witnesses -/

def c6rows : List SynRow :=
  [SynRow.mk "p" (some "Aa") (some "common") (some "en"),
   SynRow.mk "p" (some "aA") (some "common") (some "en"),
   SynRow.mk "q" (some "B") none none]

def c8vern : Vern := ⟨some "Kudzu", none, none, none⟩

def c5req : Nat → Nat → FetchResult := fun i s =>
  if s == 1 && i == 0 then FetchResult.tooLarge else FetchResult.ok []

def c7attempt : String → Option String :=
  fun nm => if nm == "s2" then some "Dog Rose" else none

def c7req : Nat → Nat → FetchResult :=
  fun _ _ => FetchResult.ok [("p", some " s1 "), ("p", some "s2")]

/-- The locale rule actually implemented by `_best_locale`: absent language
is treated as English, so a country hint still yields `en-<COUNTRY>`. -/
def localeSpecAmended (lang : String) (country : Option String) : String :=
  if lang = "en" ∨ lang = "eng" ∨ lang = "" then
    (if upperStr (country.getD "") = "" then "en" else "en-" ++ upperStr (country.getD ""))
  else lang

/-! ## The canonicalizer the spec describes (for comparison with the code)

The spec says: strip a hybrid marker *token*, truncate at the first
infraspecific-rank *marker* (case-insensitive) and everything after it,
split on whitespace, join the first two tokens.  We formalise that reading
token-wise: a hybrid token consists solely of hybrid-marker characters, and
a rank-marker token equals one of the alternatives case-insensitively. -/

def isRankMarkerTok (t : List Char) : Bool :=
  markers.any (fun m => t.map Char.toLower == m)

def isHybridTok (cls : Char → Bool) (t : List Char) : Bool :=
  !t.isEmpty && t.all cls

def claimCanon (cls : Char → Bool) (l : List Char) : List Char :=
  if l.isEmpty then [] else
  let toks := (pysplit l).filter (fun t => !(isHybridTok cls t))
  let toks2 := toks.takeWhile (fun t => !(isRankMarkerTok t))
  joinSpace (toks2.take 2)

def claimCanonStr (s : String) : String :=
  String.mk (claimCanon isHybridDwca s.data)

/-! ## Helper lemmas -/

theorem lang_code_ne_eng (v : Vern) : lang_code v ≠ "eng" := by
  unfold lang_code
  by_cases h : lowerStr (v.language.getD "") == "eng"
  · simp only [h, if_true]; decide
  · simp only [h, if_false]
    simpa using h


theorem length_dropWhile_le (p : α → Bool) (l : List α) :
    (l.dropWhile p).length ≤ l.length := by
  have h := List.takeWhile_append_dropWhile (p := p) (l := l)
  have h2 : (l.takeWhile p).length + (l.dropWhile p).length = l.length := by
    rw [← List.length_append, h]
  omega

theorem dropWhile_eq_self_of_head (p : α → Bool) (l : List α)
    (h : ∀ c, l.head? = some c → p c = false) : l.dropWhile p = l := by
  cases l with
  | nil => rfl
  | cons c rest => simp [List.dropWhile_cons, h c rfl]

theorem head_dropWhile_false (p : α → Bool) (l : List α) (c : α)
    (h : (l.dropWhile p).head? = some c) : p c = false := by
  induction l with
  | nil => simp at h
  | cons x rest ih =>
    by_cases hx : p x
    · rw [List.dropWhile_cons, if_pos hx] at h; exact ih h
    · rw [List.dropWhile_cons, if_neg hx] at h
      simp only [List.head?_cons, Option.some.injEq] at h
      rw [← h]
      simpa using hx

theorem getLast_append_right (l₁ l₂ : List α) (h : l₂ ≠ []) :
    (l₁ ++ l₂).getLast? = l₂.getLast? := by
  induction l₁ with
  | nil => simp
  | cons x rest ih =>
    rw [List.cons_append, List.getLast?_cons, ih]
    cases l₂ with
    | nil => exact absurd rfl h
    | cons y ys => simp [List.getLast?_cons]

theorem pystrip_head (l : List Char) (c : Char) (h : (pystrip l).head? = some c) :
    isPySpace c = false := by
  unfold pystrip at h
  set y := (l.dropWhile isPySpace).reverse with hy
  rw [List.head?_reverse] at h
  obtain ⟨t, ht⟩ := (List.dropWhile_suffix (l := y) (p := isPySpace))
  have hz : y.dropWhile isPySpace ≠ [] := by
    intro hz; rw [hz] at h; simp at h
  have h1 : y.getLast? = some c := by
    rw [← ht, getLast_append_right _ _ hz]; exact h
  rw [hy, List.getLast?_reverse] at h1
  exact head_dropWhile_false _ _ _ h1

theorem pystrip_last (l : List Char) (c : Char) (h : (pystrip l).getLast? = some c) :
    isPySpace c = false := by
  unfold pystrip at h
  rw [List.getLast?_reverse] at h
  exact head_dropWhile_false _ _ _ h

theorem pystrip_eq_self (l : List Char)
    (h1 : ∀ c, l.head? = some c → isPySpace c = false)
    (h2 : ∀ c, l.getLast? = some c → isPySpace c = false) : pystrip l = l := by
  unfold pystrip
  rw [dropWhile_eq_self_of_head _ _ h1]
  rw [dropWhile_eq_self_of_head _ _ (fun c hc => h2 c (by rwa [List.head?_reverse] at hc))]
  exact List.reverse_reverse l

theorem pystrip_idem (l : List Char) : pystrip (pystrip l) = pystrip l :=
  pystrip_eq_self _ (pystrip_head l) (pystrip_last l)

theorem pystripStr_idem (s : String) : pystripStr (pystripStr s) = pystripStr s := by
  unfold pystripStr
  rw [show (String.mk (pystrip s.data)).data = pystrip s.data from rfl, pystrip_idem]

theorem dedupAux_spec (dflt : String) (rows : List SynRow) :
    ∀ seen, ((dedupAux dflt seen rows).map (synKey dflt)).Nodup ∧
      ∀ k ∈ (dedupAux dflt seen rows).map (synKey dflt), k ∉ seen := by
  induction rows with
  | nil =>
    intro seen
    exact ⟨by simp [dedupAux], by simp [dedupAux]⟩
  | cons r rest ih =>
    intro seen
    by_cases h : synKey dflt r ∈ seen
    · rw [show dedupAux dflt seen (r :: rest) = dedupAux dflt seen rest by
        simp [dedupAux, h]]
      exact ih seen
    · rw [show dedupAux dflt seen (r :: rest) = r :: dedupAux dflt (synKey dflt r :: seen) rest by
        simp [dedupAux, h]]
      obtain ⟨hnd, hnin⟩ := ih (synKey dflt r :: seen)
      refine ⟨?_, ?_⟩
      · rw [List.map_cons, List.nodup_cons]
        exact ⟨fun hmem => (hnin _ hmem) (List.mem_cons_self _ _), hnd⟩
      · intro k hk
        rw [List.map_cons, List.mem_cons] at hk
        rcases hk with hk | hk
        · rw [hk]; exact h
        · exact fun hs => (hnin k hk) (List.mem_cons_of_mem _ hs)

theorem pymaxBy_mem (f : α → Int) (l : List α) (v : α) (h : pymaxBy f l = some v) :
    v ∈ l := by
  cases l with
  | nil => simp [pymaxBy] at h
  | cons x xs =>
    have aux : ∀ (ys : List α) (acc : α),
        ys.foldl (fun a y => if f y > f a then y else a) acc = acc ∨
          ys.foldl (fun a y => if f y > f a then y else a) acc ∈ ys := by
      intro ys
      induction ys with
      | nil => intro acc; left; rfl
      | cons y ys ih =>
        intro acc
        rw [List.foldl_cons]
        by_cases hy : f y > f acc
        · rw [if_pos hy]
          rcases ih y with h1 | h1
          · right; rw [h1]; exact List.mem_cons_self _ _
          · right; exact List.mem_cons_of_mem _ h1
        · rw [if_neg hy]
          rcases ih acc with h1 | h1
          · left; exact h1
          · right; exact List.mem_cons_of_mem _ h1
    simp only [pymaxBy, Option.some.injEq] at h
    rcases aux xs x with h1 | h1
    · rw [← h, h1]; exact List.mem_cons_self _ _
    · rw [← h]; exact List.mem_cons_of_mem _ h1

example : pyInt "  123 " = some 123 := by decide
example : pyInt "1_2" = some 12 := by decide
example : pyInt "12.5" = none := by decide
example : pyInt "abc" = none := by decide
example : pyInt "-4" = some (-4) := by decide
example : pyInt "" = none := by decide
example : resolve_one (fun _ => none) "Rosa" ["a", "b", "c"] = (none, 4) := by decide

/-! ## Claim theorems -/

/-- C6: after the client-side de-duplication of `_parallel_upsert_synonyms`,
no two synonym records in the same outgoing batch (one chunk of the row
list) share the dedup key `(plant_id, lowercase(name), kind-or-default,
locale-or-"")`. -/
theorem C6_dedup_key_unique (dflt : String) (rows : List SynRow) (batch : Nat)
    (chunk : List SynRow) (hmem : chunk ∈ rows.toChunks batch) :
    (dedupRows dflt chunk).Pairwise (fun a b => synKey dflt a ≠ synKey dflt b) := by
  have h := (dedupAux_spec dflt chunk []).1
  exact List.pairwise_map.mp h

theorem C6_dedup_key_unique_witness :
    c6rows ∈ c6rows.toChunks 1000 ∧
    (dedupRows "common" c6rows).Pairwise
      (fun a b => synKey "common" a ≠ synKey "common" b) :=
  ⟨by decide, C6_dedup_key_unique "common" c6rows 1000 c6rows (by decide)⟩

/-- C2 counterexample: the candidate "rose family" (English, not preferred,
no country) scores 11 through `_pick_score` (bulk-dump path) but 14 through
`_pick_best_common_name`'s scorer (remote path): not every scoring path
computes the same formula — the −3 rank-label penalty exists only in
`_pick_score`. -/
theorem C2_counterexample :
    pick_score "rose family" none "en" none = 11 ∧
    pbcn_score ⟨some "rose family", some "en", none, none⟩ = 14 ∧
    pick_score "rose family" none "en" none ≠
      pbcn_score ⟨some "rose family", some "en", none, none⟩ := by
  refine ⟨by decide, by decide, by decide⟩

/-- C2 (amended): the two scoring paths agree except that only
`_pick_score` applies the −3 rank-label penalty: for every candidate, the
remote-registry score equals the bulk-dump score with the penalty added
back. -/
theorem C2_score_paths_agree_except_penalty (v : Vern) :
    pbcn_score v =
      pick_score (v.vernacularName.getD "") v.preferred (lang_code v) v.country
        + (if looksLikeRankLabel (lowerStr (v.vernacularName.getD "")) then 3 else 0) := by
  have hne : (lang_code v == "eng") = false := by
    simpa using lang_code_ne_eng v
  simp only [pbcn_score, pick_score, hne, Bool.or_false]
  split_ifs <;> omega

/-- C8 counterexample: in the remote-registry path a candidate with an
absent language yields locale `None`, not `en`; and in the bulk-dump path
an absent language with a country hint yields `en-US`, not `en` — the
claim's "`en` when the language is absent" fails on both counts. -/
theorem C8_counterexample :
    pick_best_common_name [⟨some "Kudzu", none, none, none⟩] = (some "Kudzu", none) ∧
    (none : Option String) ≠ some "en" ∧
    best_locale "" (some "US") = "en-US" ∧ ("en-US" : String) ≠ "en" := by
  refine ⟨by decide, by decide, by decide, by decide⟩

/-- C8 (amended): `_best_locale` treats an absent language as English (so a
country hint still produces `en-<COUNTRY>`); the remote path yields no
locale for an absent language; and Scenario B selects "African Violet"
with locale `en-US`. -/
theorem C8_locale_derivation :
    (∀ lang country, best_locale lang country = localeSpecAmended lang country) ∧
    (∀ (vns : List Vern) (w : Vern), pymaxBy pbcn_score (pickPool vns) = some w →
      lang_code w = "" → (pick_best_common_name vns).2 = none) ∧
    pick_best_common_name
      [⟨some "African Violet", some "en", some true, some "US"⟩,
       ⟨some "Violeta Africana", some "es", some false, none⟩]
      = (some "African Violet", some "en-US") := by
  refine ⟨?_, ?_, by decide⟩
  · intro lang country
    unfold best_locale localeSpecAmended
    by_cases h1 : lang = "en" ∨ lang = "eng" ∨ lang = ""
    · have hb : (lang == "en" || lang == "eng") = true ∨
          ((lang == "en" || lang == "eng") = false ∧ (lang == "") = true) := by
        rcases h1 with h | h | h <;> simp [h]
      rcases hb with hb | ⟨hb1, hb2⟩
      · simp only [hb, if_true, if_pos h1]
        by_cases hc : upperStr (country.getD "") = ""
        · simp [hc]
        · simp [hc]
      · simp only [hb1, if_false, hb2, if_true, if_pos h1]
        by_cases hc : upperStr (country.getD "") = ""
        · simp [hc]
        · simp [hc]
    · push_neg at h1
      obtain ⟨hen, heng, hemp⟩ := h1
      simp only [show (lang == "en") = false by simpa using hen,
        show (lang == "eng") = false by simpa using heng,
        show (lang == "") = false by simpa using hemp,
        Bool.or_self, if_false, if_neg (by tauto : ¬(lang = "en" ∨ lang = "eng" ∨ lang = ""))]
      simp [show (lang == "en") = false by simpa using hen]
  · intro vns w hmax hlc
    unfold pick_best_common_name
    by_cases he : vns.isEmpty
    · simp [he]
    · simp only [he, if_false]
      by_cases hp : (pickPool vns).isEmpty
      · simp [hp]
      · simp only [hp, if_false, hmax]
        simp [hlc]

theorem C8_locale_derivation_witness :
    pymaxBy pbcn_score (pickPool [c8vern]) = some c8vern ∧
    lang_code c8vern = "" ∧
    (pick_best_common_name [c8vern]).2 = none ∧
    best_locale "es" (some "MX") = localeSpecAmended "es" (some "MX") :=
  ⟨by decide, by decide,
   C8_locale_derivation.2.1 [c8vern] c8vern (by decide) (by decide),
   C8_locale_derivation.1 "es" (some "MX")⟩

/-- C3 counterexample: an entity with a non-blank display name ("Dog Rose")
distinct from its scientific name, with `force` unset, contributes neither
a display-name update nor a synonym record — its synonym candidate is NOT
collected, contrary to the claim. -/
theorem C3_counterexample :
    stage_row false true "p1" (some "Rosa canina") (some "Dog Rose") (some ("Dog-rose", "en"))
      = (none, none) ∧
    ∀ syn : SynRow,
      (stage_row false true "p1" (some "Rosa canina") (some "Dog Rose")
        (some ("Dog-rose", "en"))).1 ≠ some syn := by
  refine ⟨by decide, ?_⟩
  intro syn h
  rw [show (stage_row false true "p1" (some "Rosa canina") (some "Dog Rose")
      (some ("Dog-rose", "en"))).1 = none by decide] at h
  exact Option.noConfusion h

/-- C3 (amended): with `force` unset, an entity whose non-blank display
name differs (case-insensitively, after strip) from its scientific name is
excluded from the display-name overwrite AND from synonym collection (the
gate `continue` skips both); an entity whose display name equals its
scientific name is included, staging both the synonym and (when display
updates are enabled) the update. -/
theorem C3_gate_skips_row (setDisplay : Bool) (pid sci cur bn loc : String)
    (hsci : pystripStr sci ≠ "")
    (hcur : pystripStr cur ≠ "")
    (hdiff : lowerStr (pystripStr cur) ≠ lowerStr (pystripStr sci)) :
    stage_row false setDisplay pid (some sci) (some cur) (some (bn, loc)) = (none, none) ∧
    (lowerStr (pystripStr bn) ≠ lowerStr (pystripStr sci) →
      stage_row false setDisplay pid (some sci) (some sci) (some (bn, loc)) =
        (some { plant_id := pid, name := some bn, kind := some "common",
                locale := some (if loc == "" then "en" else loc) },
         if setDisplay then some (pid, bn) else none)) := by
  constructor
  · simp only [stage_row, Option.getD_some]
    rw [if_neg (by simp only [beq_iff_eq]; exact hsci)]
    by_cases hbn : lowerStr (pystripStr bn) = lowerStr (pystripStr sci)
    · rw [if_pos (by simp only [beq_iff_eq]; exact hbn)]
    · rw [if_neg (by simp only [beq_iff_eq]; exact hbn)]
      rw [if_pos (by
        simp only [Bool.not_false, Bool.true_and, Bool.and_eq_true, decide_eq_true_eq]
        exact ⟨hcur, by rw [pystripStr_idem, pystripStr_idem]; exact hdiff⟩)]
  · intro hbn
    simp only [stage_row, Option.getD_some]
    rw [if_neg (by simp only [beq_iff_eq]; exact hsci)]
    rw [if_neg (by simp only [beq_iff_eq]; exact hbn)]
    rw [if_neg (by simp [pystripStr_idem])]

theorem C3_gate_skips_row_witness :
    stage_row false true "p1" (some "Rosa canina") (some "Dog Rose") (some ("Dog-rose", "en"))
      = (none, none) ∧
    stage_row false true "p1" (some "Rosa canina") (some "Rosa canina") (some ("Dog-rose", "en"))
      = (some { plant_id := "p1", name := some "Dog-rose", kind := some "common",
                locale := some "en" },
         some ("p1", "Dog-rose")) :=
  ⟨(C3_gate_skips_row true "p1" "Rosa canina" "Dog Rose" "Dog-rose" "en"
      (by decide) (by decide) (by decide)).1,
   (C3_gate_skips_row true "p1" "Rosa canina" "Dog Rose" "Dog-rose" "en"
      (by decide) (by decide) (by decide)).2 (by decide)⟩

/-- C10: whenever some candidate has an English language code and a
non-empty name, the winner picked by `_pick_best_common_name` is an
English-language candidate (the pool is restricted to English entries
before the max-score pick), and the returned pair is built from it. -/
theorem C10_english_pool_restriction (vns : List Vern)
    (h : ∃ v ∈ vns, lang_code v = "en" ∧ vnTruthy v) :
    ∃ w ∈ vns, lang_code w = "en" ∧ vnTruthy w ∧
      pymaxBy pbcn_score (pickPool vns) = some w ∧
      pick_best_common_name vns =
        (some (pystripStr (w.vernacularName.getD "")),
         some (if upperStr (w.country.getD "") = "" then "en"
               else "en-" ++ upperStr (w.country.getD ""))) := by
  obtain ⟨v, hv, hlc, ht⟩ := h
  have hfil : v ∈ vns.filter (fun v => lang_code v == "en" && vnTruthy v) := by
    rw [List.mem_filter]
    exact ⟨hv, by simp [hlc, ht]⟩
  have hpool : pickPool vns = vns.filter (fun v => lang_code v == "en" && vnTruthy v) := by
    unfold pickPool
    rw [if_neg]
    intro hemp
    rw [List.isEmpty_iff] at hemp
    rw [hemp] at hfil
    exact List.not_mem_nil v hfil
  have hpne : pickPool vns ≠ [] := by
    rw [hpool]; intro hemp; rw [hemp] at hfil; exact List.not_mem_nil v hfil
  obtain ⟨w, hw⟩ : ∃ w, pymaxBy pbcn_score (pickPool vns) = some w := by
    cases hpl : pickPool vns with
    | nil => exact absurd hpl hpne
    | cons x xs => exact ⟨_, rfl⟩
  have hwmem := pymaxBy_mem _ _ _ hw
  rw [hpool, List.mem_filter] at hwmem
  obtain ⟨hwv, hwp⟩ := hwmem
  have hwlc : lang_code w = "en" := by
    have := (Bool.and_eq_true _ _).mp hwp
    simpa using this.1
  have hwt : vnTruthy w = true := by
    have := (Bool.and_eq_true _ _).mp hwp
    exact this.2
  refine ⟨w, hwv, hwlc, hwt, hw, ?_⟩
  unfold pick_best_common_name
  rw [if_neg (by
    intro hemp
    rw [List.isEmpty_iff] at hemp
    rw [hemp] at hv
    exact List.not_mem_nil v hv)]
  rw [if_neg (by
    intro hemp
    rw [List.isEmpty_iff] at hemp
    exact hpne hemp)]
  rw [hw]
  have hn : ∃ n, w.vernacularName = some n ∧ n ≠ "" := by
    unfold vnTruthy at hwt
    cases hvn : w.vernacularName with
    | none => rw [hvn] at hwt; simp at hwt
    | some n =>
      rw [hvn] at hwt
      simp only [Option.getD_some] at hwt
      exact ⟨n, rfl, by simpa using hwt⟩
  obtain ⟨n, hn1, hn2⟩ := hn
  have hnb : (n == "") = false := by simpa using hn2
  by_cases hc : upperStr (w.country.getD "") = ""
  · simp [hwlc, hn1, hnb, hc]
  · simp [hwlc, hn1, hnb, hc]

theorem outGet_cons_pos (e : String × List String) (rest : List (String × List String))
    (q : String) (h : e.1 = q) : outGet (e :: rest) q = e.2 := by
  unfold outGet
  rw [List.find?_cons_of_pos _ (by simpa using h)]

theorem outGet_cons_neg (e : String × List String) (rest : List (String × List String))
    (q : String) (h : ¬ e.1 = q) : outGet (e :: rest) q = outGet rest q := by
  unfold outGet
  rw [List.find?_cons_of_neg _ (by simpa using h)]

theorem outGet_outApp (out : List (String × List String)) (p q nm : String) :
    outGet (outApp out p nm) q =
      if q = p then outGet out p ++ [nm] else outGet out q := by
  induction out with
  | nil =>
    by_cases h : q = p
    · rw [if_pos h, show outApp [] p nm = [(p, [nm])] from rfl,
        outGet_cons_pos _ _ _ h.symm]
      rfl
    · rw [if_neg h, show outApp [] p nm = [(p, [nm])] from rfl,
        outGet_cons_neg _ _ _ (fun e => h e.symm)]
  | cons r rest ih =>
    by_cases hr : r.1 = p
    · rw [show outApp (r :: rest) p nm = (r.1, r.2 ++ [nm]) :: rest by
        simp [outApp, hr]]
      by_cases hq : q = p
      · subst hq
        rw [if_pos rfl, outGet_cons_pos (r.1, r.2 ++ [nm]) rest q hr,
          outGet_cons_pos r rest q hr]
      · have hrq : ¬ (r.1 = q) := by rw [hr]; exact fun e => hq e.symm
        rw [if_neg hq, outGet_cons_neg (r.1, r.2 ++ [nm]) rest q hrq,
          outGet_cons_neg r rest q hrq]
    · rw [show outApp (r :: rest) p nm = r :: outApp rest p nm by
        simp [outApp, show (r.1 == p) = false by simpa using hr]]
      by_cases hq : r.1 = q
      · have hqp : ¬ q = p := fun e => hr (hq.trans e)
        rw [if_neg hqp, outGet_cons_pos _ _ _ hq, outGet_cons_pos _ _ _ hq]
      · rw [outGet_cons_neg _ _ _ hq, ih]
        by_cases hqp : q = p
        · rw [if_pos hqp, if_pos hqp, outGet_cons_neg _ _ _ hr]
        · rw [if_neg hqp, if_neg hqp, outGet_cons_neg _ _ _ hq]

theorem addRow_cap (perPlant : Nat) (out : List (String × List String))
    (row : String × Option String)
    (h : ∀ pid, (outGet out pid).length ≤ perPlant) :
    ∀ pid, (outGet (addRow perPlant out row) pid).length ≤ perPlant := by
  intro pid
  unfold addRow
  by_cases hc : (pystripStr (row.2.getD "") ≠ "" &&
      decide ((outGet out row.1).length < perPlant)) = true
  · rw [if_pos hc]
    rw [outGet_outApp]
    by_cases hp : pid = row.1
    · rw [if_pos hp]
      simp only [Bool.and_eq_true, decide_eq_true_eq] at hc
      rw [List.length_append, List.length_singleton]
      omega
    · rw [if_neg hp]; exact h pid
  · rw [if_neg hc]; exact h pid

theorem foldl_addRow_cap (perPlant : Nat) (rows : List (String × Option String)) :
    ∀ out, (∀ pid, (outGet out pid).length ≤ perPlant) →
      ∀ pid, (outGet (rows.foldl (addRow perPlant) out) pid).length ≤ perPlant := by
  induction rows with
  | nil => intro out h; exact h
  | cons r rest ih =>
    intro out h
    rw [List.foldl_cons]
    exact ih _ (addRow_cap perPlant out r h)

theorem fetchLoop_eq_ok {req : Nat → Nat → FetchResult} {perPlant n i size : Nat}
    {st : FetchState} {rows : List (String × Option String)}
    (hin : i < n) (hsz : 0 < size) (hr : req i size = FetchResult.ok rows) :
    fetchLoop req perPlant n i size st =
      fetchLoop req perPlant n (i + size) size
        ⟨rows.foldl (addRow perPlant) st.out, st.dropped,
         st.submitted + min size (n - i), st.trace ++ [(i, size)]⟩ := by
  rw [fetchLoop]
  rw [dif_pos hin, dif_pos hsz, hr]

theorem fetchLoop_eq_shrink {req : Nat → Nat → FetchResult} {perPlant n i size : Nat}
    {st : FetchState} (hin : i < n) (hsz : 0 < size)
    (hr : req i size = FetchResult.tooLarge) (h10 : 10 < size) :
    fetchLoop req perPlant n i size st =
      fetchLoop req perPlant n i (size / 2)
        ⟨st.out, st.dropped, st.submitted, st.trace ++ [(i, size)]⟩ := by
  rw [fetchLoop]
  simp only [dif_pos hin, dif_pos hsz, hr, if_pos h10]

theorem fetchLoop_eq_one {req : Nat → Nat → FetchResult} {perPlant n i size : Nat}
    {st : FetchState} (hin : i < n) (hsz : 0 < size)
    (hr : req i size = FetchResult.tooLarge) (h10 : ¬ 10 < size) (h1 : 1 < size) :
    fetchLoop req perPlant n i size st =
      fetchLoop req perPlant n i 1
        ⟨st.out, st.dropped, st.submitted, st.trace ++ [(i, size)]⟩ := by
  rw [fetchLoop]
  simp only [dif_pos hin, dif_pos hsz, hr, if_neg h10, if_pos h1]

theorem fetchLoop_eq_drop {req : Nat → Nat → FetchResult} {perPlant n i size : Nat}
    {st : FetchState} (hin : i < n) (hsz : 0 < size)
    (hr : req i size = FetchResult.tooLarge) (h10 : ¬ 10 < size) (h1 : ¬ 1 < size) :
    fetchLoop req perPlant n i size st =
      fetchLoop req perPlant n (i + 1) size
        ⟨st.out, st.dropped ++ [i], st.submitted, st.trace ++ [(i, size)]⟩ := by
  rw [fetchLoop]
  simp only [dif_pos hin, dif_pos hsz, hr, if_neg h10, if_neg h1]

theorem fetchLoop_eq_other {req : Nat → Nat → FetchResult} {perPlant n i size : Nat}
    {st : FetchState} (hin : i < n) (hsz : 0 < size)
    (hr : req i size = FetchResult.otherErr) :
    fetchLoop req perPlant n i size st =
      fetchLoop req perPlant n (i + size) size
        ⟨st.out, st.dropped, st.submitted, st.trace ++ [(i, size)]⟩ := by
  rw [fetchLoop]
  rw [dif_pos hin, dif_pos hsz, hr]

theorem fetchLoop_eq_stop {req : Nat → Nat → FetchResult} {perPlant n i size : Nat}
    {st : FetchState} (hin : ¬ i < n) :
    fetchLoop req perPlant n i size st = st := by
  rw [fetchLoop]
  rw [dif_neg hin]

/-- Accounting invariant of the shrink-and-retry loop: when the backend
never raises a non-414 error, the items submitted plus the items dropped
account exactly for the whole remaining window, and every dropped index
had a failing size-1 request.  Proof: lexicographic strong induction on
`(n - i, size)`, mirroring the loop's termination measure. -/
theorem fetchLoop_acct (req : Nat → Nat → FetchResult) (perPlant n : Nat)
    (hreq : ∀ i s, req i s ≠ FetchResult.otherErr) :
    ∀ i size st, 0 < size →
      ((fetchLoop req perPlant n i size st).submitted
          + (fetchLoop req perPlant n i size st).dropped.length
        = st.submitted + st.dropped.length + (n - i)) ∧
      (∀ j ∈ (fetchLoop req perPlant n i size st).dropped,
        j ∈ st.dropped ∨ req j 1 = FetchResult.tooLarge) := by
  have main : ∀ a b i size st, n - i ≤ a → size ≤ b → 0 < size →
      ((fetchLoop req perPlant n i size st).submitted
          + (fetchLoop req perPlant n i size st).dropped.length
        = st.submitted + st.dropped.length + (n - i)) ∧
      (∀ j ∈ (fetchLoop req perPlant n i size st).dropped,
        j ∈ st.dropped ∨ req j 1 = FetchResult.tooLarge) := by
    intro a
    induction a using Nat.strong_induction_on with
    | _ a ihA =>
      intro b
      induction b using Nat.strong_induction_on with
      | _ b ihB =>
        intro i size st hia hsb hpos
        by_cases hin : i < n
        · cases hr : req i size with
          | ok rows =>
            rw [fetchLoop_eq_ok hin hpos hr]
            have step := ihA (n - (i + size)) (by omega) size (i + size) size
              ⟨rows.foldl (addRow perPlant) st.out, st.dropped,
               st.submitted + min size (n - i), st.trace ++ [(i, size)]⟩ le_rfl le_rfl hpos
            have h1 : (fetchLoop req perPlant n (i + size) size
                ⟨rows.foldl (addRow perPlant) st.out, st.dropped,
                 st.submitted + min size (n - i), st.trace ++ [(i, size)]⟩).submitted
                  + (fetchLoop req perPlant n (i + size) size
                ⟨rows.foldl (addRow perPlant) st.out, st.dropped,
                 st.submitted + min size (n - i), st.trace ++ [(i, size)]⟩).dropped.length
                = (st.submitted + min size (n - i)) + st.dropped.length + (n - (i + size)) :=
              step.1
            have h2 : ∀ j ∈ (fetchLoop req perPlant n (i + size) size
                ⟨rows.foldl (addRow perPlant) st.out, st.dropped,
                 st.submitted + min size (n - i), st.trace ++ [(i, size)]⟩).dropped,
                j ∈ st.dropped ∨ req j 1 = FetchResult.tooLarge := step.2
            exact ⟨by omega, h2⟩
          | tooLarge =>
            by_cases h10 : 10 < size
            · rw [fetchLoop_eq_shrink hin hpos hr h10]
              have step := ihB (size / 2) (by omega) i (size / 2)
                ⟨st.out, st.dropped, st.submitted, st.trace ++ [(i, size)]⟩
                hia le_rfl (by omega)
              have h1 : (fetchLoop req perPlant n i (size / 2)
                  ⟨st.out, st.dropped, st.submitted, st.trace ++ [(i, size)]⟩).submitted
                    + (fetchLoop req perPlant n i (size / 2)
                  ⟨st.out, st.dropped, st.submitted, st.trace ++ [(i, size)]⟩).dropped.length
                  = st.submitted + st.dropped.length + (n - i) := step.1
              exact ⟨h1, step.2⟩
            · by_cases h1s : 1 < size
              · rw [fetchLoop_eq_one hin hpos hr h10 h1s]
                have step := ihB 1 (by omega) i 1
                  ⟨st.out, st.dropped, st.submitted, st.trace ++ [(i, size)]⟩
                  hia le_rfl one_pos
                have h1 : (fetchLoop req perPlant n i 1
                    ⟨st.out, st.dropped, st.submitted, st.trace ++ [(i, size)]⟩).submitted
                      + (fetchLoop req perPlant n i 1
                    ⟨st.out, st.dropped, st.submitted, st.trace ++ [(i, size)]⟩).dropped.length
                    = st.submitted + st.dropped.length + (n - i) := step.1
                exact ⟨h1, step.2⟩
              · have hsz1 : size = 1 := by omega
                rw [fetchLoop_eq_drop hin hpos hr h10 h1s]
                have step := ihA (n - (i + 1)) (by omega) size (i + 1) size
                  ⟨st.out, st.dropped ++ [i], st.submitted, st.trace ++ [(i, size)]⟩
                  le_rfl le_rfl hpos
                have h1 : (fetchLoop req perPlant n (i + 1) size
                    ⟨st.out, st.dropped ++ [i], st.submitted, st.trace ++ [(i, size)]⟩).submitted
                      + (fetchLoop req perPlant n (i + 1) size
                    ⟨st.out, st.dropped ++ [i], st.submitted,
                     st.trace ++ [(i, size)]⟩).dropped.length
                    = st.submitted + (st.dropped ++ [i]).length + (n - (i + 1)) := step.1
                have h2 : ∀ j ∈ (fetchLoop req perPlant n (i + 1) size
                    ⟨st.out, st.dropped ++ [i], st.submitted, st.trace ++ [(i, size)]⟩).dropped,
                    j ∈ st.dropped ++ [i] ∨ req j 1 = FetchResult.tooLarge := step.2
                refine ⟨?_, fun j hj => ?_⟩
                · rw [List.length_append, List.length_singleton] at h1
                  omega
                · rcases h2 j hj with hj2 | hj2
                  · rw [List.mem_append, List.mem_singleton] at hj2
                    rcases hj2 with hj2 | hj2
                    · exact Or.inl hj2
                    · right
                      rw [hj2, ← hsz1]
                      exact hr
                  · exact Or.inr hj2
          | otherErr => exact absurd hr (hreq i size)
        · rw [fetchLoop_eq_stop hin]
          exact ⟨by omega, fun j hj => Or.inl hj⟩
  intro i size st hpos
  exact main (n - i) size i size st le_rfl le_rfl hpos

/-- The loop never grows any per-plant synonym list beyond `perPlant`. -/
theorem fetchLoop_cap (req : Nat → Nat → FetchResult) (perPlant n : Nat) :
    ∀ i size st, (∀ pid, (outGet st.out pid).length ≤ perPlant) →
      ∀ pid, (outGet (fetchLoop req perPlant n i size st).out pid).length ≤ perPlant := by
  have main : ∀ a b i size st, n - i ≤ a → size ≤ b →
      (∀ pid, (outGet st.out pid).length ≤ perPlant) →
      ∀ pid, (outGet (fetchLoop req perPlant n i size st).out pid).length ≤ perPlant := by
    intro a
    induction a using Nat.strong_induction_on with
    | _ a ihA =>
      intro b
      induction b using Nat.strong_induction_on with
      | _ b ihB =>
        intro i size st hia hsb hcap
        by_cases hpos : 0 < size
        · by_cases hin : i < n
          · cases hr : req i size with
            | ok rows =>
              rw [fetchLoop_eq_ok hin hpos hr]
              exact ihA (n - (i + size)) (by omega) size (i + size) size _
                le_rfl le_rfl (foldl_addRow_cap perPlant rows st.out hcap)
            | tooLarge =>
              by_cases h10 : 10 < size
              · rw [fetchLoop_eq_shrink hin hpos hr h10]
                exact ihB (size / 2) (by omega) i (size / 2) _ hia le_rfl hcap
              · by_cases h1s : 1 < size
                · rw [fetchLoop_eq_one hin hpos hr h10 h1s]
                  exact ihB 1 (by omega) i 1 _ hia le_rfl hcap
                · rw [fetchLoop_eq_drop hin hpos hr h10 h1s]
                  exact ihA (n - (i + 1)) (by omega) size (i + 1) size _
                    le_rfl le_rfl hcap
            | otherErr =>
              rw [fetchLoop_eq_other hin hpos hr]
              exact ihA (n - (i + size)) (by omega) size (i + size) size _
                le_rfl le_rfl hcap
          · rw [fetchLoop_eq_stop hin]
            exact hcap
        · by_cases hin : i < n
          · rw [show fetchLoop req perPlant n i size st = st by
              rw [fetchLoop]; rw [dif_pos hin, dif_neg hpos]]
            exact hcap
          · rw [fetchLoop_eq_stop hin]
            exact hcap
  intro i size st hcap
  exact main (n - i) size i size st le_rfl le_rfl hcap

theorem loopSyns_len (attempt : String → Option String) (sci : String) :
    ∀ (l : List String) (c0 : Option String), (loopSyns attempt sci c0 l).2 ≤ l.length := by
  intro l
  induction l with
  | nil => intro c0; simp [loopSyns]
  | cons nm rest ih =>
    intro c0
    unfold loopSyns
    by_cases h : usableCommon sci (attempt nm) = true
    · rw [if_pos h]
      simp
    · rw [if_neg h]
      have := ih (attempt nm)
      simp only [List.length_cons]
      omega

theorem loopSyns_first (attempt : String → Option String) (sci : String) :
    ∀ (l : List String) (c0 : Option String) (j : Nat) (sj : String),
      l.get? j = some sj →
      (∀ m sm, m < j → l.get? m = some sm → usableCommon sci (attempt sm) = false) →
      usableCommon sci (attempt sj) = true →
      loopSyns attempt sci c0 l = (attempt sj, j + 1) := by
  intro l
  induction l with
  | nil =>
    intro c0 j sj hget
    simp at hget
  | cons nm rest ih =>
    intro c0 j sj hget hprev hcur
    cases j with
    | zero =>
      rw [List.get?_cons_zero, Option.some.injEq] at hget
      subst hget
      simp only [loopSyns, hcur, if_true]
    | succ k =>
      have h0 : usableCommon sci (attempt nm) = false :=
        hprev 0 nm (by omega) List.get?_cons_zero
      rw [List.get?_cons_succ] at hget
      simp only [loopSyns, h0, Bool.false_eq_true, if_false]
      rw [ih (attempt nm) k sj hget
        (fun m sm hm hg => hprev (m + 1) sm (by omega) (by rwa [List.get?_cons_succ]))
        hcur]

/-- C5 counterexample: with the default window size 80 (`SUPABASE_IN_MAX`)
and a backend that always answers "request too large", the attempted chunk
sizes are 80, 40, 20, 10, 1 — after failing at size 10 the retry uses
size 1, not the halved size 5.  The shrink schedule is not pure halving, so
"retried with the chunk size halved; halving stops at size 1" is false as
stated. -/
theorem C5_counterexample :
    (fetch_scientific_synonyms (fun _ _ => FetchResult.tooLarge) 8 80 1).trace
      = [(0, 80), (0, 40), (0, 20), (0, 10), (0, 1)] ∧
    (0, 5) ∉ (fetch_scientific_synonyms (fun _ _ => FetchResult.tooLarge) 8 80 1).trace ∧
    (10 : Nat) / 2 = 5 := by
  have h : (fetch_scientific_synonyms (fun _ _ => FetchResult.tooLarge) 8 80 1).trace
      = [(0, 80), (0, 40), (0, 20), (0, 10), (0, 1)] := by
    simp [fetch_scientific_synonyms, fetchLoop]
  refine ⟨h, ?_, by decide⟩
  rw [h]
  decide

/-- C5 (amended): on request-too-large failures the same window is retried
with the size halved while it exceeds 10 and set directly to 1 below that;
a failing size-1 request drops exactly that one item and advances.  The
loop is total (the definition is well-founded on `(n - i, size)`), and when
no other error class occurs the items submitted plus the dropped items
account for the whole input, every dropped item having had a failing
size-1 request. -/
theorem C5_shrink_accounting (req : Nat → Nat → FetchResult) (perPlant inMax n : Nat)
    (hreq : ∀ i s, req i s ≠ FetchResult.otherErr) :
    (fetch_scientific_synonyms req perPlant inMax n).submitted
        + (fetch_scientific_synonyms req perPlant inMax n).dropped.length = n ∧
    ∀ j ∈ (fetch_scientific_synonyms req perPlant inMax n).dropped,
      req j 1 = FetchResult.tooLarge := by
  unfold fetch_scientific_synonyms
  obtain ⟨h1, h2⟩ := fetchLoop_acct req perPlant n hreq 0 (max 1 inMax) ⟨[], [], 0, []⟩
    (by omega)
  have h1a : (fetchLoop req perPlant n 0 (max 1 inMax) ⟨[], [], 0, []⟩).submitted
      + (fetchLoop req perPlant n 0 (max 1 inMax) ⟨[], [], 0, []⟩).dropped.length
      = 0 + 0 + (n - 0) := h1
  have h2a : ∀ j ∈ (fetchLoop req perPlant n 0 (max 1 inMax) ⟨[], [], 0, []⟩).dropped,
      j ∈ ([] : List Nat) ∨ req j 1 = FetchResult.tooLarge := h2
  refine ⟨by omega, fun j hj => ?_⟩
  rcases h2a j hj with hj2 | hj2
  · exact absurd hj2 (List.not_mem_nil j)
  · exact hj2

theorem C5_shrink_accounting_witness :
    (fetch_scientific_synonyms c5req 8 1 2).submitted
        + (fetch_scientific_synonyms c5req 8 1 2).dropped.length = 2 ∧
    ∀ j ∈ (fetch_scientific_synonyms c5req 8 1 2).dropped,
      c5req j 1 = FetchResult.tooLarge :=
  C5_shrink_accounting c5req 8 1 2 (by
    intro i s
    unfold c5req
    by_cases h : (s == 1 && i == 0) = true
    · rw [if_pos h]; exact fun hc => FetchResult.noConfusion hc
    · rw [if_neg h]; exact fun hc => FetchResult.noConfusion hc)

/-- C7: the synonym fallback chain is total and performs at most
`limit + 1` resolution attempts — one primary plus one per fetched synonym,
where `_fetch_scientific_synonyms` caps every per-entity synonym list at
`per_plant` = 8 (`GBIF_SYNONYM_LIMIT`) — and it stops at the first attempt
whose result is non-empty and not case-insensitively identical (after
strip) to the entity's scientific name, trying no further synonyms. -/
theorem C7_fallback_chain (attempt : String → Option String) (sci : String)
    (req : Nat → Nat → FetchResult) (inMax n : Nat) (pid : String) (syns : List String) :
    ((outGet (fetch_scientific_synonyms req 8 inMax n).out pid).length ≤ 8) ∧
    ((resolve_one attempt sci syns).2 ≤ syns.length + 1) ∧
    (usableCommon sci (attempt sci) = true →
      resolve_one attempt sci syns = (attempt sci, 1)) ∧
    (∀ j sj, syns.get? j = some sj →
      usableCommon sci (attempt sci) = false →
      (∀ m sm, m < j → syns.get? m = some sm → usableCommon sci (attempt sm) = false) →
      usableCommon sci (attempt sj) = true →
      resolve_one attempt sci syns = (attempt sj, j + 2)) := by
  refine ⟨?_, ?_, ?_, ?_⟩
  · unfold fetch_scientific_synonyms
    exact fetchLoop_cap req 8 n 0 (max 1 inMax) ⟨[], [], 0, []⟩
      (fun q => by simp [outGet]) pid
  · unfold resolve_one
    by_cases h : usableCommon sci (attempt sci) = true
    · rw [if_pos h]; omega
    · rw [if_neg h]
      have := loopSyns_len attempt sci syns (attempt sci)
      simp only
      omega
  · intro h
    unfold resolve_one
    rw [if_pos h]
  · intro j sj hget hprim hprev hcur
    show (if usableCommon sci (attempt sci) = true then (attempt sci, 1)
      else ((loopSyns attempt sci (attempt sci) syns).1,
            (loopSyns attempt sci (attempt sci) syns).2 + 1)) = (attempt sj, j + 2)
    rw [if_neg (by rw [hprim]; exact Bool.false_ne_true)]
    rw [loopSyns_first attempt sci syns (attempt sci) j sj hget hprev hcur]

theorem C7_fallback_chain_witness :
    (outGet (fetch_scientific_synonyms c7req 8 80 1).out "p").length ≤ 8 ∧
    (resolve_one c7attempt "Rosa" ["s1", "s2"]).2 ≤ 3 ∧
    resolve_one c7attempt "Rosa" ["s1", "s2"] = (some "Dog Rose", 3) :=
  ⟨(C7_fallback_chain c7attempt "Rosa" c7req 80 1 "p" ["s1", "s2"]).1,
   (C7_fallback_chain c7attempt "Rosa" c7req 80 1 "p" ["s1", "s2"]).2.1,
   by
    have h := (C7_fallback_chain c7attempt "Rosa" c7req 80 1 "p" ["s1", "s2"]).2.2.2
      1 "s2" (by decide) (by decide)
      (fun m sm hm hg => by
        have hm0 : m = 0 := by omega
        subst hm0
        rw [List.get?_cons_zero, Option.some.injEq] at hg
        subst hg
        decide)
      (by decide)
    exact h.trans (by decide)⟩

/-- C9: during the Taxon.tsv streaming pass, a row whose identifier column
is missing or not a valid Python integer contributes nothing, the fold over
the remaining rows continues unchanged (the stream is a total function),
and a row with fewer cells than the header reads exactly as if the missing
cells were empty strings. -/
theorem C9_malformed_rows (needNames : List String) (row : List (String × String))
    (pre post : List (List (String × String)))
    (hbad : pyInt ((rowGet row ["taxonID", "taxonId", "usageID", "usageKey"]).getD "")
      = none) :
    processTaxonRow needNames row = none ∧
    buildNameToKeys needNames (pre ++ row :: post) = buildNameToKeys needNames (pre ++ post) ∧
    (∀ (idx : List (String × Nat)) (cells : List String) (m : Nat),
      rowOf idx (cells ++ List.replicate m "") = rowOf idx cells) := by
  have hskip : processTaxonRow needNames row = none := by
    simp only [processTaxonRow]
    split_ifs <;> simp [hbad]
  refine ⟨hskip, ?_, ?_⟩
  · unfold buildNameToKeys
    rw [List.foldl_append, List.foldl_append, List.foldl_cons, hskip]
  · intro idx cells m
    unfold rowOf
    apply List.map_congr_left
    intro p _
    by_cases h : p.2 < cells.length
    · rw [List.get?_append h]
    · have hnone : cells.get? p.2 = none := by
        rw [List.get?_eq_none]
        omega
      rw [hnone, List.get?_append_right (by omega)]
      cases hrep : (List.replicate m "").get? (p.2 - cells.length) with
      | none => rfl
      | some v =>
        have hv : v ∈ List.replicate m "" := List.get?_mem hrep
        rw [List.eq_of_mem_replicate hv]
        rfl

theorem C9_malformed_rows_witness :
    processTaxonRow ["Saintpaulia ionantha"]
      [("kingdom", "Plantae"), ("taxonRank", "species"),
       ("canonicalName", "Saintpaulia ionantha"), ("taxonID", "12.5")] = none ∧
    buildNameToKeys ["Saintpaulia ionantha"]
      ([[("kingdom", "Plantae"), ("taxonRank", "species"),
         ("canonicalName", "Saintpaulia ionantha"), ("taxonID", "7")]] ++
       [("kingdom", "Plantae"), ("taxonRank", "species"),
        ("canonicalName", "Saintpaulia ionantha"), ("taxonID", "12.5")] ::
       [[("kingdom", "Plantae"), ("taxonRank", "species"),
         ("canonicalName", "Saintpaulia ionantha"), ("taxonID", "8")]]) =
    buildNameToKeys ["Saintpaulia ionantha"]
      ([[("kingdom", "Plantae"), ("taxonRank", "species"),
         ("canonicalName", "Saintpaulia ionantha"), ("taxonID", "7")]] ++
       [[("kingdom", "Plantae"), ("taxonRank", "species"),
         ("canonicalName", "Saintpaulia ionantha"), ("taxonID", "8")]]) ∧
    rowOf [("kingdom", 0), ("taxonID", 3)] (["Plantae"] ++ List.replicate 3 "")
      = rowOf [("kingdom", 0), ("taxonID", 3)] ["Plantae"] := by
  have h := C9_malformed_rows ["Saintpaulia ionantha"]
    [("kingdom", "Plantae"), ("taxonRank", "species"),
     ("canonicalName", "Saintpaulia ionantha"), ("taxonID", "12.5")]
    [[("kingdom", "Plantae"), ("taxonRank", "species"),
      ("canonicalName", "Saintpaulia ionantha"), ("taxonID", "7")]]
    [[("kingdom", "Plantae"), ("taxonRank", "species"),
      ("canonicalName", "Saintpaulia ionantha"), ("taxonID", "8")]]
    (by decide)
  exact ⟨h.1, h.2.1, h.2.2 [("kingdom", 0), ("taxonID", 3)] ["Plantae"] 3⟩

theorem C10_english_pool_restriction_witness :
    ∃ w ∈ [Vern.mk (some "Nopal") (some "es") (some true) (some "US"),
           Vern.mk (some "a b c d e f g") (some "en") none none],
      lang_code w = "en" ∧ vnTruthy w ∧
      pymaxBy pbcn_score
        (pickPool [Vern.mk (some "Nopal") (some "es") (some true) (some "US"),
                   Vern.mk (some "a b c d e f g") (some "en") none none]) = some w ∧
      pick_best_common_name
        [Vern.mk (some "Nopal") (some "es") (some true) (some "US"),
         Vern.mk (some "a b c d e f g") (some "en") none none] =
        (some (pystripStr (w.vernacularName.getD "")),
         some (if upperStr (w.country.getD "") = "" then "en"
               else "en-" ++ upperStr (w.country.getD ""))) :=
  C10_english_pool_restriction _
    ⟨Vern.mk (some "a b c d e f g") (some "en") none none, by decide, by decide, by decide⟩

/-! ## Lemmas about the truncation regex model -/

theorem blocked_not_word {c : Char} (h : blockedChar c = true) : isWordChar c = false := by
  simp only [blockedChar, Bool.and_eq_true, Bool.not_eq_true'] at h
  exact h.2

theorem blocked_not_marker {c : Char} (h : blockedChar c = true) :
    markerCharSet.contains c.toLower = false := by
  simp only [blockedChar, Bool.and_eq_true, Bool.not_eq_true'] at h
  exact h.1

theorem pyspace_blocked (c : Char) (h : isPySpace c = true) : blockedChar c = true := by
  simp only [isPySpace, Bool.or_eq_true, beq_iff_eq] at h
  rcases h with ((((rfl | rfl) | rfl) | rfl) | rfl) | rfl <;> decide

theorem pyspace_not_word (c : Char) (h : isPySpace c = true) : isWordChar c = false :=
  blocked_not_word (pyspace_blocked c h)

theorem markers_chars : ∀ m ∈ markers, ∀ ch ∈ m, ch ∈ markerCharSet := by decide

theorem ciMatch_append {m a r : List Char} (b : List Char) (h : ciMatch m a = some r) :
    ciMatch m (a ++ b) = some (r ++ b) := by
  induction m generalizing a r with
  | nil =>
    simp only [ciMatch, Option.some.injEq] at h ⊢
    rw [← h]
  | cons mc ms ih =>
    cases a with
    | nil => exact absurd h (by simp [ciMatch])
    | cons c cs =>
      rw [List.cons_append]
      unfold ciMatch at h ⊢
      by_cases hc : (c.toLower == mc) = true
      · rw [if_pos hc] at h ⊢
        exact ih h
      · rw [if_neg hc] at h
        exact absurd h (by simp)

theorem ciMatch_split {m : List Char} (hm : ∀ ch ∈ m, ch ∈ markerCharSet) :
    ∀ {a t r : List Char}, HBlock t → ciMatch m (a ++ t) = some r →
      ∃ r0, ciMatch m a = some r0 ∧ r = r0 ++ t := by
  induction m with
  | nil =>
    intro a t r _ h
    simp only [ciMatch, Option.some.injEq] at h
    exact ⟨a, rfl, by rw [← h]⟩
  | cons mc ms ih =>
    intro a t r hb h
    cases a with
    | nil =>
      rcases hb with rfl | ⟨d, t0, rfl, hd⟩
      · exact absurd h (by simp [ciMatch])
      · rw [List.nil_append] at h
        unfold ciMatch at h
        have hdm : ¬ ((d.toLower == mc) = true) := by
          intro hcon
          have heq : d.toLower = mc := by simpa using hcon
          have hmem : mc ∈ markerCharSet := hm mc (List.mem_cons_self _ _)
          have : markerCharSet.contains d.toLower = true := by
            rw [heq]
            exact List.elem_eq_true_of_mem hmem
          rw [blocked_not_marker hd] at this
          exact Bool.false_ne_true this
        rw [if_neg hdm] at h
        exact absurd h (by simp)
    | cons c cs =>
      rw [List.cons_append] at h
      unfold ciMatch at h ⊢
      by_cases hc : (c.toLower == mc) = true
      · rw [if_pos hc] at h ⊢
        exact ih (fun ch hch => hm ch (List.mem_cons_of_mem _ hch)) hb h
      · rw [if_neg hc] at h
        exact absurd h (by simp)

theorem headIsWord_split {r0 t : List Char} (hb : HBlock t)
    (hw : headIsWord (r0 ++ t) = true) : ∃ e r1, r0 = e :: r1 ∧ isWordChar e = true := by
  cases r0 with
  | nil =>
    rcases hb with rfl | ⟨d, t0, rfl, hd⟩
    · simp [headIsWord] at hw
    · rw [List.nil_append] at hw
      rw [show headIsWord (d :: t0) = isWordChar d from rfl, blocked_not_word hd] at hw
      exact absurd hw (by simp)
  | cons e r1 =>
    exact ⟨e, r1, rfl, by simpa [headIsWord] using hw⟩

theorem tryFrom_isSome {ms : List (List Char)} {l : List Char} :
    (tryFrom ms l).isSome = true ↔
      ∃ m, m ∈ ms ∧ ∃ r, ciMatch m l = some r ∧ headIsWord r = true := by
  induction ms with
  | nil => simp [tryFrom]
  | cons m ms ih =>
    cases hci : ciMatch m l with
    | none =>
      rw [show tryFrom (m :: ms) l = tryFrom ms l by simp only [tryFrom, hci]]
      rw [ih]
      constructor
      · rintro ⟨m2, hm2, hr⟩
        exact ⟨m2, List.mem_cons_of_mem _ hm2, hr⟩
      · rintro ⟨m2, hm2, r, hr, hw⟩
        rcases List.mem_cons.mp hm2 with rfl | hm2
        · rw [hci] at hr
          exact absurd hr (by simp)
        · exact ⟨m2, hm2, r, hr, hw⟩
    | some rest =>
      rw [show tryFrom (m :: ms) l =
          (if headIsWord rest = true then some rest else tryFrom ms l) by
        simp only [tryFrom, hci]]
      by_cases hw : headIsWord rest = true
      · rw [if_pos hw]
        simp only [Option.isSome_some, true_iff]
        exact ⟨m, List.mem_cons_self _ _, rest, hci, hw⟩
      · rw [if_neg hw, ih]
        constructor
        · rintro ⟨m2, hm2, hr⟩
          exact ⟨m2, List.mem_cons_of_mem _ hm2, hr⟩
        · rintro ⟨m2, hm2, r, hr, hw2⟩
          rcases List.mem_cons.mp hm2 with rfl | hm2
          · rw [hci] at hr
            injection hr with he
            exact absurd (he ▸ hw2) hw
          · exact ⟨m2, hm2, r, hr, hw2⟩

theorem tryMarkers_isSome {l : List Char} :
    (tryMarkers l).isSome = true ↔
      ∃ m, m ∈ markers ∧ ∃ r, ciMatch m l = some r ∧ headIsWord r = true :=
  tryFrom_isSome

theorem tryMarkers_none_blocked {d : Char} (t : List Char) (hd : blockedChar d = true) :
    tryMarkers (d :: t) = none := by
  cases hopt : tryMarkers (d :: t) with
  | none => rfl
  | some r =>
    exfalso
    have hs : (tryMarkers (d :: t)).isSome = true := by rw [hopt]; rfl
    obtain ⟨m, hmem, r2, hci, hw⟩ := tryMarkers_isSome.mp hs
    cases m with
    | nil => exact absurd hmem (by decide)
    | cons mc ms =>
      have hmc : mc ∈ markerCharSet := markers_chars _ hmem mc (List.mem_cons_self _ _)
      unfold ciMatch at hci
      by_cases hc : (d.toLower == mc) = true
      · have hmm : markerCharSet.contains d.toLower = true := by
          rw [show d.toLower = mc from by simpa using hc]
          exact List.elem_eq_true_of_mem hmc
        rw [blocked_not_marker hd] at hmm
        exact Bool.false_ne_true hmm
      · rw [if_neg hc] at hci
        exact Option.noConfusion hci

theorem tryMarkers_extend {a t : List Char} (hb : HBlock t)
    (h : (tryMarkers (a ++ t)).isSome = true) (w : List Char) :
    (tryMarkers (a ++ w)).isSome = true := by
  obtain ⟨m, hmem, r, hci, hw⟩ := tryMarkers_isSome.mp h
  obtain ⟨r0, hci0, rfl⟩ := ciMatch_split (markers_chars m hmem) hb hci
  obtain ⟨e, r1, rfl, he⟩ := headIsWord_split hb hw
  refine tryMarkers_isSome.mpr ⟨m, hmem, (e :: r1) ++ w, ciMatch_append w hci0, ?_⟩
  simpa [headIsWord] using he

theorem scanDel_newline (p : Bool) (rest : List Char) :
    scanTruncAux true p ('\n' :: rest) = '\n' :: scanTruncAux false false rest := by
  simp [scanTruncAux]

theorem scanDel_other {c : Char} (p : Bool) (rest : List Char) (h : ¬ c = '\n') :
    scanTruncAux true p (c :: rest) = scanTruncAux true p rest := by
  simp [scanTruncAux, h]

theorem scanNorm_match {p : Bool} {c : Char} {rest : List Char}
    (h : (!p && (tryMarkers (c :: rest)).isSome) = true) :
    scanTruncAux false p (c :: rest) = scanTruncAux true p rest := by
  simp [scanTruncAux, h]

theorem scanNorm_keep {p : Bool} {c : Char} {rest : List Char}
    (h : (!p && (tryMarkers (c :: rest)).isSome) = false) :
    scanTruncAux false p (c :: rest) = c :: scanTruncAux false (isWordChar c) rest := by
  simp [scanTruncAux, h]

theorem scanDel_shape : ∀ (l : List Char) (p : Bool),
    scanTruncAux true p l = [] ∨
    ∃ junk r, l = junk ++ '\n' :: r ∧
      scanTruncAux true p l = '\n' :: scanTruncAux false false r := by
  intro l
  induction l with
  | nil => intro p; left; rfl
  | cons c rest ih =>
    intro p
    by_cases hc : c = '\n'
    · subst hc
      right
      exact ⟨[], rest, rfl, scanDel_newline p rest⟩
    · rw [scanDel_other p rest hc]
      rcases ih p with h | ⟨junk, r, hl, he⟩
      · left; exact h
      · right; exact ⟨c :: junk, r, by rw [hl, List.cons_append], he⟩

theorem scanNorm_splice : ∀ (l : List Char) (p : Bool), SpliceRel l (scanTruncAux false p l) := by
  intro l
  induction l with
  | nil => intro p; left; rfl
  | cons c rest ih =>
    intro p
    by_cases hb : (!p && (tryMarkers (c :: rest)).isSome) = true
    · rw [scanNorm_match hb]
      rcases scanDel_shape rest p with h | ⟨junk, r, _, he⟩
      · right
        exact ⟨[], [], by rw [h]; rfl, ⟨c :: rest, rfl⟩, Or.inl rfl⟩
      · right
        refine ⟨[], '\n' :: scanTruncAux false false r, by rw [he]; rfl,
          ⟨c :: rest, rfl⟩, ?_⟩
        exact Or.inr ⟨'\n', _, rfl, by decide⟩
    · rw [scanNorm_keep (by simpa using hb)]
      rcases ih (isWordChar c) with h | ⟨a, t, ho, ⟨b, hr⟩, hbl⟩
      · left; rw [h]
      · right
        exact ⟨c :: a, t, by rw [ho, List.cons_append],
          ⟨b, by rw [hr, List.cons_append]⟩, hbl⟩

theorem isSome_through_splice {rest out : List Char} {c : Char}
    (hs : SpliceRel rest out) (h : (tryMarkers (c :: out)).isSome = true) :
    (tryMarkers (c :: rest)).isSome = true := by
  rcases hs with rfl | ⟨a, t, rfl, ⟨b, rfl⟩, hbl⟩
  · exact h
  · have h2 : (tryMarkers ((c :: a) ++ t)).isSome = true := by rwa [List.cons_append]
    have h3 := tryMarkers_extend hbl h2 b
    rwa [List.cons_append] at h3

theorem occ_lift_cons {c : Char} {rest : List Char} (p : Bool)
    (h : OccursRel (isWordChar c) rest) : OccursRel p (c :: rest) := by
  obtain ⟨pre, suf, rfl, hb, hsome⟩ := h
  refine ⟨c :: pre, suf, rfl, ?_, hsome⟩
  rcases hb with ⟨rfl, hw⟩ | ⟨d, hd, hw⟩
  · exact Or.inr ⟨c, by simp, hw⟩
  · refine Or.inr ⟨d, ?_, hw⟩
    cases pre with
    | nil => simp at hd
    | cons x xs => rw [List.getLast?_cons_cons]; exact hd

theorem noOcc_nil (p : Bool) : ¬ OccursRel p [] := by
  rintro ⟨pre, suf, heq, _, hsome⟩
  have h2 := List.append_eq_nil.mp heq.symm
  rw [h2.2, show tryMarkers [] = none from rfl] at hsome
  simp at hsome

theorem scan_id_of_noOcc : ∀ (l : List Char) (p : Bool),
    ¬ OccursRel p l → scanTruncAux false p l = l := by
  intro l
  induction l with
  | nil => intro p _; rfl
  | cons c rest ih =>
    intro p hno
    have hb : (!p && (tryMarkers (c :: rest)).isSome) = false := by
      by_cases hcon : (!p && (tryMarkers (c :: rest)).isSome) = true
      · rw [Bool.and_eq_true] at hcon
        exact absurd ⟨[], c :: rest, rfl, Or.inl ⟨rfl, by simpa using hcon.1⟩, hcon.2⟩ hno
      · simpa using hcon
    rw [scanNorm_keep hb]
    rw [ih (isWordChar c) (fun h => hno (occ_lift_cons p h))]

theorem scan_noOcc_aux : ∀ (n : Nat) (l : List Char) (p : Bool), l.length ≤ n →
    ¬ OccursRel p (scanTruncAux false p l) := by
  intro n
  induction n with
  | zero =>
    intro l p hl
    have hnil : l = [] := List.eq_nil_of_length_eq_zero (by omega)
    subst hnil
    exact noOcc_nil p
  | succ n ih =>
    intro l p hl
    cases l with
    | nil => exact noOcc_nil p
    | cons c rest =>
      by_cases hmatch : (!p && (tryMarkers (c :: rest)).isSome) = true
      · rw [scanNorm_match hmatch]
        rcases scanDel_shape rest p with hdel | ⟨junk, r, hrest, hdel⟩
        · rw [hdel]; exact noOcc_nil p
        · rw [hdel]
          rintro ⟨pre, suf, heq, hbound, hsome⟩
          cases pre with
          | nil =>
            rw [List.nil_append] at heq
            rw [← heq, tryMarkers_none_blocked _ (by decide)] at hsome
            simp at hsome
          | cons x pre0 =>
            rw [List.cons_append, List.cons.injEq] at heq
            have hlen : r.length ≤ n := by
              have h1 : rest.length ≤ n := by simpa using hl
              have h2 : rest.length = junk.length + 1 + r.length := by
                rw [hrest]
                simp [List.length_append]
                omega
              omega
            refine ih r false hlen ⟨pre0, suf, heq.2, ?_, hsome⟩
            rcases hbound with ⟨habs, _⟩ | ⟨d, hd, hw⟩
            · exact absurd habs (by simp)
            · cases pre0 with
              | nil => exact Or.inl ⟨rfl, rfl⟩
              | cons y ys =>
                refine Or.inr ⟨d, ?_, hw⟩
                rw [List.getLast?_cons_cons] at hd
                exact hd
      · rw [scanNorm_keep (by simpa using hmatch)]
        rintro ⟨pre, suf, heq, hbound, hsome⟩
        cases pre with
        | nil =>
          rw [List.nil_append] at heq
          rcases hbound with ⟨_, hp⟩ | ⟨d, hd, hw⟩
          · subst hp
            have hnots : (tryMarkers (c :: rest)).isSome = false := by
              simpa using hmatch
            rw [← heq] at hsome
            have h3 := isSome_through_splice (scanNorm_splice rest (isWordChar c)) hsome
            rw [hnots] at h3
            exact Bool.false_ne_true h3
          · simp at hd
        | cons x pre0 =>
          rw [List.cons_append, List.cons.injEq] at heq
          refine ih rest (isWordChar c) (by simpa using hl) ⟨pre0, suf, heq.2, ?_, hsome⟩
          rcases hbound with ⟨habs, _⟩ | ⟨d, hd, hw⟩
          · exact absurd habs (by simp)
          · cases pre0 with
            | nil =>
              refine Or.inl ⟨rfl, ?_⟩
              rw [show ([x] : List Char).getLast? = some x by simp, Option.some.injEq] at hd
              rw [heq.1, hd]
              exact hw
            | cons y ys =>
              refine Or.inr ⟨d, ?_, hw⟩
              rw [List.getLast?_cons_cons] at hd
              exact hd

/-- The scanner's output is occurrence-free. -/
theorem scan_noOcc (l : List Char) (p : Bool) : ¬ OccursRel p (scanTruncAux false p l) :=
  scan_noOcc_aux l.length l p le_rfl

/-! ## Lemmas about `pysplit`, `pystrip`, `joinSpace` -/

theorem takeWhile_all {p : α → Bool} : ∀ {xs : List α}, (∀ c ∈ xs, p c = true) →
    xs.takeWhile p = xs ∧ xs.dropWhile p = [] := by
  intro xs
  induction xs with
  | nil => intro _; exact ⟨rfl, rfl⟩
  | cons x xr ih =>
    intro h
    have hx : p x = true := h x (List.mem_cons_self _ _)
    obtain ⟨h1, h2⟩ := ih (fun c hc => h c (List.mem_cons_of_mem _ hc))
    exact ⟨by rw [List.takeWhile_cons, if_pos hx, h1],
      by rw [List.dropWhile_cons, if_pos hx, h2]⟩

theorem takeWhile_all_append {p : α → Bool} {y : α} {ys : List α} :
    ∀ {xs : List α}, (∀ c ∈ xs, p c = true) → p y = false →
    (xs ++ y :: ys).takeWhile p = xs ∧ (xs ++ y :: ys).dropWhile p = y :: ys := by
  intro xs
  induction xs with
  | nil =>
    intro _ hy
    exact ⟨by rw [List.nil_append, List.takeWhile_cons, if_neg (by simp [hy])],
      by rw [List.nil_append, List.dropWhile_cons, if_neg (by simp [hy])]⟩
  | cons x xr ih =>
    intro h hy
    have hx : p x = true := h x (List.mem_cons_self _ _)
    obtain ⟨h1, h2⟩ := ih (fun c hc => h c (List.mem_cons_of_mem _ hc)) hy
    exact ⟨by rw [List.cons_append, List.takeWhile_cons, if_pos hx, h1],
      by rw [List.cons_append, List.dropWhile_cons, if_pos hx, h2]⟩

theorem pysplit_ws_cons {c : Char} {rest : List Char} (h : isPySpace c = true) :
    pysplit (c :: rest) = pysplit rest := by
  simp [pysplit, pysplitAux, h]

theorem pysplitAux_token : ∀ (l : List Char) (cur : List Char), cur ≠ [] →
    pysplitAux cur l = (cur.reverse ++ l.takeWhile (fun x => !isPySpace x)) ::
      pysplit (l.dropWhile (fun x => !isPySpace x)) := by
  intro l
  induction l with
  | nil =>
    intro cur hcur
    rw [show pysplitAux cur [] = [cur.reverse] by
      simp [pysplitAux, show cur.isEmpty = false by simpa using hcur]]
    simp [pysplit, pysplitAux]
  | cons c rest ih =>
    intro cur hcur
    by_cases hc : isPySpace c = true
    · rw [show pysplitAux cur (c :: rest) = cur.reverse :: pysplitAux [] rest by
        simp [pysplitAux, hc, show cur.isEmpty = false by simpa using hcur]]
      rw [show (c :: rest).takeWhile (fun x => !isPySpace x) = [] by
        simp [List.takeWhile_cons, hc]]
      rw [show (c :: rest).dropWhile (fun x => !isPySpace x) = c :: rest by
        simp [List.dropWhile_cons, hc]]
      rw [List.append_nil, pysplit_ws_cons hc]
      rfl
    · rw [show pysplitAux cur (c :: rest) = pysplitAux (c :: cur) rest by
        simp [pysplitAux, hc]]
      rw [ih (c :: cur) (by simp)]
      rw [show (c :: rest).takeWhile (fun x => !isPySpace x)
          = c :: rest.takeWhile (fun x => !isPySpace x) by simp [List.takeWhile_cons, hc]]
      rw [show (c :: rest).dropWhile (fun x => !isPySpace x)
          = rest.dropWhile (fun x => !isPySpace x) by simp [List.dropWhile_cons, hc]]
      simp

theorem pysplit_of_drop_nil {l : List Char} (h : l.dropWhile isPySpace = []) :
    pysplit l = [] := by
  induction l with
  | nil => rfl
  | cons c rest ih =>
    by_cases hc : isPySpace c = true
    · rw [List.dropWhile_cons, if_pos hc] at h
      rw [pysplit_ws_cons hc]
      exact ih h
    · rw [List.dropWhile_cons, if_neg hc] at h
      exact absurd h (by simp)

theorem pysplit_of_drop_cons {l : List Char} {c : Char} {r : List Char}
    (h : l.dropWhile isPySpace = c :: r) :
    pysplit l = (c :: r.takeWhile (fun x => !isPySpace x)) ::
      pysplit (r.dropWhile (fun x => !isPySpace x)) := by
  induction l with
  | nil => exact absurd h (by simp)
  | cons x rest ih =>
    by_cases hx : isPySpace x = true
    · rw [List.dropWhile_cons, if_pos hx] at h
      rw [pysplit_ws_cons hx]
      exact ih h
    · rw [List.dropWhile_cons, if_neg hx] at h
      injection h with h1 h2
      subst h1
      subst h2
      rw [show pysplit (x :: rest) = pysplitAux [x] rest by simp [pysplit, pysplitAux, hx]]
      rw [pysplitAux_token rest [x] (by simp)]
      rfl

theorem pysplit_cons_decomp {l A : List Char} {ts : List (List Char)}
    (h : pysplit l = A :: ts) :
    ∃ w0 rest, l = w0 ++ A ++ rest ∧ (∀ c ∈ w0, isPySpace c = true) ∧ A ≠ [] ∧
      (∀ c ∈ A, isPySpace c = false) ∧ ts = pysplit rest ∧
      (rest = [] ∨ ∃ d r2, rest = d :: r2 ∧ isPySpace d = true) := by
  cases hdrop : l.dropWhile isPySpace with
  | nil =>
    rw [pysplit_of_drop_nil hdrop] at h
    exact absurd h (by simp)
  | cons c r =>
    rw [pysplit_of_drop_cons hdrop] at h
    injection h with h1 h2
    refine ⟨l.takeWhile isPySpace, r.dropWhile (fun x => !isPySpace x), ?_, ?_, ?_, ?_, ?_, ?_⟩
    · conv_lhs => rw [← List.takeWhile_append_dropWhile (p := isPySpace) (l := l)]
      rw [hdrop, ← h1, List.append_assoc]
      rw [show (c :: r.takeWhile (fun x => !isPySpace x)) ++ r.dropWhile (fun x => !isPySpace x)
          = c :: r by rw [List.cons_append, List.takeWhile_append_dropWhile]]
    · intro x hx
      exact List.mem_takeWhile_imp hx
    · rw [← h1]; simp
    · intro x hx
      rw [← h1] at hx
      rcases List.mem_cons.mp hx with rfl | hx
      · exact head_dropWhile_false isPySpace l x (by rw [hdrop]; rfl)
      · have := List.mem_takeWhile_imp hx
        simpa using this
    · exact h2.symm
    · cases hrest : r.dropWhile (fun x => !isPySpace x) with
      | nil => exact Or.inl rfl
      | cons d r2 =>
        refine Or.inr ⟨d, r2, rfl, ?_⟩
        have := head_dropWhile_false (fun x => !isPySpace x) r d (by rw [hrest]; rfl)
        simpa using this

theorem pysplit_token_single {A : List Char} (hne : A ≠ [])
    (hA : ∀ c ∈ A, isPySpace c = false) : pysplit A = [A] := by
  cases A with
  | nil => exact absurd rfl hne
  | cons a A0 =>
    have hdrop : (a :: A0).dropWhile isPySpace = a :: A0 :=
      dropWhile_eq_self_of_head _ _ (fun c hc => by
        rw [List.head?_cons, Option.some.injEq] at hc
        rw [← hc]
        exact hA a (List.mem_cons_self _ _))
    rw [pysplit_of_drop_cons hdrop]
    obtain ⟨ht, hd⟩ := @takeWhile_all _ (fun x => !isPySpace x) A0
      (fun c hc => by simp [hA c (List.mem_cons_of_mem _ hc)])
    rw [ht, hd]
    rfl

theorem pysplit_join2 {A B : List Char} (hAne : A ≠ []) (hBne : B ≠ [])
    (hA : ∀ c ∈ A, isPySpace c = false) (hB : ∀ c ∈ B, isPySpace c = false) :
    pysplit (A ++ ' ' :: B) = [A, B] := by
  cases A with
  | nil => exact absurd rfl hAne
  | cons a A0 =>
    have hdrop : ((a :: A0) ++ ' ' :: B).dropWhile isPySpace = a :: (A0 ++ ' ' :: B) :=
      dropWhile_eq_self_of_head _ _ (fun c hc => by
        rw [List.cons_append, List.head?_cons, Option.some.injEq] at hc
        rw [← hc]
        exact hA a (List.mem_cons_self _ _))
    rw [show (a :: A0) ++ ' ' :: B = a :: (A0 ++ ' ' :: B) from rfl] at hdrop ⊢
    rw [pysplit_of_drop_cons hdrop]
    obtain ⟨ht, hd⟩ := @takeWhile_all_append _ (fun x => !isPySpace x) ' ' B A0
      (fun c hc => by simp [hA c (List.mem_cons_of_mem _ hc)]) (by decide)
    rw [ht, hd, pysplit_ws_cons (by decide), pysplit_token_single hBne hB]

theorem joinSpace_pair (A B : List Char) : joinSpace [A, B] = A ++ ' ' :: B := by
  simp [joinSpace, List.intercalate]

theorem pystrip_decomp (l : List Char) :
    ∃ w0 w1, l = w0 ++ pystrip l ++ w1 ∧ (∀ c ∈ w0, isPySpace c = true) ∧
      (∀ c ∈ w1, isPySpace c = true) := by
  refine ⟨l.takeWhile isPySpace,
    ((l.dropWhile isPySpace).reverse.takeWhile isPySpace).reverse, ?_, ?_, ?_⟩
  · conv_lhs => rw [← List.takeWhile_append_dropWhile (p := isPySpace) (l := l)]
    rw [List.append_assoc]
    congr 1
    unfold pystrip
    conv_lhs => rw [← List.reverse_reverse (l.dropWhile isPySpace)]
    rw [show (l.dropWhile isPySpace).reverse
        = (l.dropWhile isPySpace).reverse.takeWhile isPySpace
          ++ (l.dropWhile isPySpace).reverse.dropWhile isPySpace by
      rw [List.takeWhile_append_dropWhile]]
    rw [List.reverse_append]
    rw [List.takeWhile_append_dropWhile]
  · intro c hc
    exact List.mem_takeWhile_imp hc
  · intro c hc
    rw [List.mem_reverse] at hc
    exact List.mem_takeWhile_imp hc

/-! ## Character-subset and identity lemmas for the substitutions -/

theorem removeHybridAux_nocls (cls : Char → Bool) :
    ∀ (l : List Char) (sk : Bool) (c : Char), c ∈ removeHybridAux cls sk l →
      cls c = false := by
  intro l
  induction l with
  | nil => intro sk c hc; simp [removeHybridAux] at hc
  | cons x rest ih =>
    intro sk c hc
    by_cases hx : cls x = true
    · rw [show removeHybridAux cls sk (x :: rest) = removeHybridAux cls true rest by
        simp [removeHybridAux, hx]] at hc
      exact ih true c hc
    · by_cases hsk : (sk && isPySpace x) = true
      · rw [show removeHybridAux cls sk (x :: rest) = removeHybridAux cls true rest by
          simp only [removeHybridAux]
          rw [if_neg hx, if_pos hsk]] at hc
        exact ih true c hc
      · rw [show removeHybridAux cls sk (x :: rest) = x :: removeHybridAux cls false rest by
          simp only [removeHybridAux]
          rw [if_neg hx, if_neg hsk]] at hc
        rcases List.mem_cons.mp hc with rfl | hc
        · simpa using hx
        · exact ih false c hc

theorem removeHybridAux_id (cls : Char → Bool) :
    ∀ (l : List Char), (∀ c ∈ l, cls c = false) → removeHybridAux cls false l = l := by
  intro l
  induction l with
  | nil => intro _; rfl
  | cons x rest ih =>
    intro h
    have hx : cls x = false := h x (List.mem_cons_self _ _)
    have hx2 : ¬ cls x = true := by rw [hx]; simp
    rw [show removeHybridAux cls false (x :: rest) = x :: removeHybridAux cls false rest by
      simp only [removeHybridAux]
      rw [if_neg hx2]
      simp]
    rw [ih (fun c hc => h c (List.mem_cons_of_mem _ hc))]

theorem scanTruncAux_subset : ∀ (l : List Char) (mode p : Bool) (c : Char),
    c ∈ scanTruncAux mode p l → c ∈ l := by
  intro l
  induction l with
  | nil => intro mode p c hc; simp [scanTruncAux] at hc
  | cons x rest ih =>
    intro mode p c hc
    cases mode with
    | true =>
      by_cases hx : x = '\n'
      · subst hx
        rw [scanDel_newline] at hc
        rcases List.mem_cons.mp hc with rfl | hc
        · exact List.mem_cons_self _ _
        · exact List.mem_cons_of_mem _ (ih false false c hc)
      · rw [scanDel_other p rest hx] at hc
        exact List.mem_cons_of_mem _ (ih true p c hc)
    | false =>
      by_cases hm : (!p && (tryMarkers (x :: rest)).isSome) = true
      · rw [scanNorm_match hm] at hc
        exact List.mem_cons_of_mem _ (ih true p c hc)
      · rw [scanNorm_keep (by simpa using hm)] at hc
        rcases List.mem_cons.mp hc with rfl | hc
        · exact List.mem_cons_self _ _
        · exact List.mem_cons_of_mem _ (ih false (isWordChar x) c hc)

/-! ## Transfer of marker occurrences across strip and join -/

theorem occ_extend_right {s : List Char} (w : List Char) (h : OccursRel false s) :
    OccursRel false (s ++ w) := by
  obtain ⟨pre, suf, rfl, hb, hsome⟩ := h
  refine ⟨pre, suf ++ w, by rw [List.append_assoc], hb, ?_⟩
  have h2 : (tryMarkers (suf ++ [])).isSome = true := by rwa [List.append_nil]
  exact tryMarkers_extend (Or.inl rfl) h2 w

theorem occ_extend_left {s : List Char} (w0 : List Char)
    (hw0 : ∀ c ∈ w0, isPySpace c = true) (h : OccursRel false s) :
    OccursRel false (w0 ++ s) := by
  obtain ⟨pre, suf, rfl, hb, hsome⟩ := h
  refine ⟨w0 ++ pre, suf, by rw [List.append_assoc], ?_, hsome⟩
  rcases hb with ⟨rfl, _⟩ | ⟨d, hd, hw⟩
  · cases w0 with
    | nil => exact Or.inl ⟨by simp, rfl⟩
    | cons x xs =>
      refine Or.inr ⟨(x :: xs).getLast (by simp), ?_, ?_⟩
      · rw [List.append_nil, List.getLast?_eq_getLast _ (by simp)]
      · exact pyspace_not_word _ (hw0 _ (List.getLast_mem _))
  · have hpre : pre ≠ [] := fun he => by rw [he] at hd; simp at hd
    exact Or.inr ⟨d, by rw [getLast_append_right _ _ hpre]; exact hd, hw⟩

theorem occ_join_transfer {A B w1 : List Char}
    (hBne : B ≠ []) (hB : ∀ c ∈ B, isPySpace c = false)
    (hw1ne : w1 ≠ []) (hw1 : ∀ c ∈ w1, isPySpace c = true)
    (h : OccursRel false (A ++ ' ' :: B)) : OccursRel false (A ++ w1 ++ B) := by
  obtain ⟨pre, suf, heq, hb, hsome⟩ := h
  rcases List.append_eq_append_iff.mp heq with ⟨mid, hA2, hmid⟩ | ⟨mid, hA2, hmid⟩
  · -- pre = A ++ mid and mid ++ suf = ' ' :: B
    cases mid with
    | nil =>
      rw [List.nil_append] at hmid
      rw [← hmid, tryMarkers_none_blocked _ (by decide)] at hsome
      simp at hsome
    | cons m0 mid2 =>
      rw [List.cons_append, List.cons.injEq] at hmid
      obtain ⟨rfl, hmid2⟩ := hmid
      -- m0 = ' ' and B = mid2 ++ suf
      refine ⟨A ++ w1 ++ mid2, suf, ?_, ?_, hsome⟩
      · rw [hmid2, ← List.append_assoc]
      · cases hm2 : mid2 with
        | nil =>
          subst hm2
          refine Or.inr ⟨w1.getLast hw1ne, ?_, ?_⟩
          · rw [List.append_nil, getLast_append_right _ _ hw1ne,
              List.getLast?_eq_getLast _ hw1ne]
          · exact pyspace_not_word _ (hw1 _ (List.getLast_mem _))
        | cons y ys =>
          rcases hb with ⟨habs, _⟩ | ⟨d, hd, hw⟩
          · rw [hA2] at habs
            exact absurd habs (by simp)
          · refine Or.inr ⟨d, ?_, hw⟩
            rw [hA2, hm2] at hd
            rw [getLast_append_right _ _ (by simp)] at hd
            rw [getLast_append_right _ _ (by simp)]
            rw [List.getLast?_cons_cons] at hd
            exact hd
  · -- A = pre ++ mid and suf = mid ++ (' ' :: B)
    have hext := tryMarkers_extend
      (Or.inr ⟨' ', B, rfl, by decide⟩)
      (by rw [← hmid]; exact hsome) (w1 ++ B)
    refine ⟨pre, mid ++ (w1 ++ B), ?_, hb, hext⟩
    rw [← List.append_assoc, ← hA2, List.append_assoc]

/-! ## Fixed-point analysis of the canonicalizer -/

theorem dropWhile_subset_self (p : α → Bool) : ∀ (l : List α), ∀ c ∈ l.dropWhile p, c ∈ l := by
  intro l
  induction l with
  | nil => intro c hc; simpa using hc
  | cons x rest ih =>
    intro c hc
    rw [List.dropWhile_cons] at hc
    by_cases hx : p x = true
    · rw [if_pos hx] at hc
      exact List.mem_cons_of_mem _ (ih c hc)
    · rw [if_neg hx] at hc
      exact hc

theorem dropWhile_nil_all {p : α → Bool} : ∀ {l : List α}, l.dropWhile p = [] →
    ∀ c ∈ l, p c = true := by
  intro l
  induction l with
  | nil => intro _ c hc; simp at hc
  | cons x xs ih =>
    intro h c hc
    rw [List.dropWhile_cons] at h
    by_cases hx : p x = true
    · rw [if_pos hx] at h
      rcases List.mem_cons.mp hc with rfl | hc
      · exact hx
      · exact ih h c hc
    · rw [if_neg hx] at h
      exact absurd h (by simp)

theorem pystrip_subset (l : List Char) : ∀ c ∈ pystrip l, c ∈ l := by
  intro c hc
  unfold pystrip at hc
  rw [List.mem_reverse] at hc
  have h1 := dropWhile_subset_self isPySpace _ c hc
  rw [List.mem_reverse] at h1
  exact dropWhile_subset_self isPySpace l c h1

theorem mem_of_getLastOpt {l : List α} {a : α} (h : l.getLast? = some a) : a ∈ l := by
  cases l with
  | nil => simp at h
  | cons x xs =>
    rw [List.getLast?_eq_getLast _ (by simp), Option.some.injEq] at h
    rw [← h]
    exact List.getLast_mem _

theorem occ_pystrip_lift {l : List Char} (h : OccursRel false (pystrip l)) :
    OccursRel false l := by
  obtain ⟨v0, v1, heq, hv0, hv1⟩ := pystrip_decomp l
  have h2 := occ_extend_left v0 hv0 (occ_extend_right v1 h)
  rw [← List.append_assoc] at h2
  rw [heq]
  exact h2

theorem noOcc_strip (t1 : List Char) : ¬ OccursRel false (pystrip (scanTrunc t1)) :=
  fun h => scan_noOcc t1 false (occ_pystrip_lift h)

/-- Any list satisfying the four fixed-point conditions is returned
unchanged by `canonWith`. -/
theorem canonWith_fix (cls : Char → Bool) (r : List Char)
    (hcls : ∀ c ∈ r, cls c = false) (hocc : ¬ OccursRel false r)
    (hstrip : pystrip r = r)
    (hsplit : pysplit r = [r] ∨ ∃ A B, r = A ++ ' ' :: B ∧ pysplit r = [A, B]) :
    canonWith cls r = r := by
  have hne : r ≠ [] := by
    intro h0
    subst h0
    rcases hsplit with h | ⟨A, B, habs, _⟩
    · exact absurd h (by simp [pysplit, pysplitAux])
    · exact absurd habs (by simp)
  have hEm : r.isEmpty = false := by
    cases r with
    | nil => exact absurd rfl hne
    | cons => rfl
  simp only [canonWith]
  rw [if_neg (by simp [hEm])]
  rw [show removeHybrid cls r = r from removeHybridAux_id cls r hcls]
  rw [show scanTrunc r = r from scan_id_of_noOcc r false hocc]
  rw [hstrip]
  rcases hsplit with h | ⟨A, B, hAB, h⟩
  · rw [h]
    rw [show List.length [r] = 1 from rfl]
    rw [if_neg (by decide)]
  · rw [h]
    rw [show List.length [A, B] = 2 from rfl]
    rw [if_pos (by decide)]
    rw [show List.take 2 [A, B] = [A, B] from rfl]
    rw [joinSpace_pair, ← hAB]

/-- Structure of the canonicalizer's output: it is empty, or it satisfies
all four fixed-point conditions of `canonWith_fix`. -/
theorem canonWith_out (cls : Char → Bool) (hsp : cls ' ' = false) (l : List Char) :
    canonWith cls l = [] ∨
    ((∀ c ∈ canonWith cls l, cls c = false) ∧ ¬ OccursRel false (canonWith cls l) ∧
     pystrip (canonWith cls l) = canonWith cls l ∧
     (pysplit (canonWith cls l) = [canonWith cls l] ∨
      ∃ A B, canonWith cls l = A ++ ' ' :: B ∧ pysplit (canonWith cls l) = [A, B])) := by
  by_cases hl : l.isEmpty = true
  · left
    have h0 : l = [] := by
      cases l with
      | nil => rfl
      | cons => simp [List.isEmpty] at hl
    subst h0
    rfl
  · have hform : canonWith cls l =
        (if 2 ≤ (pysplit (pystrip (scanTrunc (removeHybrid cls l)))).length
         then joinSpace ((pysplit (pystrip (scanTrunc (removeHybrid cls l)))).take 2)
         else pystrip (scanTrunc (removeHybrid cls l))) := by
      simp only [canonWith]
      rw [if_neg hl]
    have hsubS : ∀ c ∈ pystrip (scanTrunc (removeHybrid cls l)), cls c = false := by
      intro c hc
      have h1 := pystrip_subset _ c hc
      have h2 := scanTruncAux_subset _ false false c h1
      exact removeHybridAux_nocls cls l false c h2
    cases hS : pysplit (pystrip (scanTrunc (removeHybrid cls l))) with
    | nil =>
      left
      cases hs0 : pystrip (scanTrunc (removeHybrid cls l)) with
      | nil =>
        rw [hform, hs0]
        decide
      | cons c s0 =>
        exfalso
        have hhead : isPySpace c = false :=
          pystrip_head (scanTrunc (removeHybrid cls l)) c (by rw [hs0]; rfl)
        have hdrop : (c :: s0).dropWhile isPySpace = c :: s0 :=
          dropWhile_eq_self_of_head _ _ (fun d hd => by
            rw [List.head?_cons, Option.some.injEq] at hd
            rw [← hd]
            exact hhead)
        have hps := pysplit_of_drop_cons hdrop
        rw [hs0] at hS
        rw [hps] at hS
        exact absurd hS (by simp)
    | cons A ts =>
      cases ts with
      | nil =>
        right
        have hlen : ¬ 2 ≤ (pysplit (pystrip (scanTrunc (removeHybrid cls l)))).length := by
          rw [hS]
          simp
        have hr : canonWith cls l = pystrip (scanTrunc (removeHybrid cls l)) := by
          rw [hform, if_neg hlen]
        obtain ⟨w0, rest, hseq, hw0, hAne, hA, hts, hrest⟩ := pysplit_cons_decomp hS
        have hw0nil : w0 = [] := by
          cases w0 with
          | nil => rfl
          | cons x xs =>
            exfalso
            have hx : isPySpace x = true := hw0 x (List.mem_cons_self _ _)
            have hhead : (pystrip (scanTrunc (removeHybrid cls l))).head? = some x := by
              rw [hseq]
              rfl
            have hnw := pystrip_head _ x hhead
            rw [hx] at hnw
            exact absurd hnw (by simp)
        have hrestnil : rest = [] := by
          rcases hrest with h0 | ⟨d, r2, hdr, hd⟩
          · exact h0
          · exfalso
            have hdropnil : rest.dropWhile isPySpace = [] := by
              cases hdd : rest.dropWhile isPySpace with
              | nil => rfl
              | cons e r3 =>
                have hps := pysplit_of_drop_cons hdd
                exact absurd (hts.trans hps) (by simp)
            have hallws := dropWhile_nil_all hdropnil
            have hne2 : rest ≠ [] := by rw [hdr]; simp
            obtain ⟨e, he⟩ : ∃ e, rest.getLast? = some e := by
              cases rest with
              | nil => exact absurd rfl hne2
              | cons q qs => exact ⟨_, List.getLast?_eq_getLast _ (by simp)⟩
            have hlaste : (pystrip (scanTrunc (removeHybrid cls l))).getLast? = some e := by
              rw [hseq, getLast_append_right _ _ hne2]
              exact he
            have hnw := pystrip_last _ e hlaste
            rw [hallws e (mem_of_getLastOpt he)] at hnw
            exact absurd hnw (by simp)
        have hsA : pystrip (scanTrunc (removeHybrid cls l)) = A := by
          rw [hseq, hw0nil, hrestnil]
          simp
        refine ⟨?_, ?_, ?_, ?_⟩
        · intro c hc
          rw [hr] at hc
          exact hsubS c hc
        · rw [hr]
          exact noOcc_strip _
        · rw [hr]
          exact pystrip_idem _
        · left
          rw [hr, hsA]
          rw [hsA] at hS
          exact hS
      | cons B ts2 =>
        right
        have hlen : 2 ≤ (pysplit (pystrip (scanTrunc (removeHybrid cls l)))).length := by
          rw [hS]
          simp
        have hr2 : canonWith cls l = A ++ ' ' :: B := by
          rw [hform, if_pos hlen, hS]
          rw [show List.take 2 (A :: B :: ts2) = [A, B] from rfl]
          exact joinSpace_pair A B
        obtain ⟨w0, rest, hseq, hw0, hAne, hA, hts, hrest⟩ := pysplit_cons_decomp hS
        obtain ⟨w1, rest2, hreq, hw1, hBne, hB, hts2, hrest2⟩ := pysplit_cons_decomp hts.symm
        have hw1ne : w1 ≠ [] := by
          intro h0
          subst h0
          rw [List.nil_append] at hreq
          rcases hrest with h0 | ⟨d, r2, hdr, hd⟩
          · rw [h0] at hreq
            exact hBne (List.append_eq_nil.mp hreq.symm).1
          · cases B with
            | nil => exact hBne rfl
            | cons b B0 =>
              rw [hdr, List.cons_append] at hreq
              injection hreq with h1 _
              have hwsb := hB b (List.mem_cons_self _ _)
              rw [← h1, hd] at hwsb
              exact absurd hwsb (by simp)
        refine ⟨?_, ?_, ?_, ?_⟩
        · intro c hc
          rw [hr2] at hc
          rcases List.mem_append.mp hc with hc | hc
          · refine hsubS c ?_
            rw [hseq]
            exact List.mem_append.mpr (Or.inl (List.mem_append.mpr (Or.inr hc)))
          · rcases List.mem_cons.mp hc with rfl | hc
            · exact hsp
            · refine hsubS c ?_
              rw [hseq]
              refine List.mem_append.mpr (Or.inr ?_)
              rw [hreq]
              exact List.mem_append.mpr (Or.inl (List.mem_append.mpr (Or.inr hc)))
        · rw [hr2]
          intro hocc
          have h1 := occ_join_transfer hBne hB hw1ne hw1 hocc
          have h2 := occ_extend_right rest2 h1
          have h3 := occ_extend_left w0 hw0 h2
          refine noOcc_strip (removeHybrid cls l) ?_
          rw [hseq, hreq]
          simpa only [List.append_assoc] using h3
        · rw [hr2]
          apply pystrip_eq_self
          · intro c hc
            cases A with
            | nil => exact absurd rfl hAne
            | cons a A0 =>
              rw [List.cons_append, List.head?_cons, Option.some.injEq] at hc
              rw [← hc]
              exact hA a (List.mem_cons_self _ _)
          · intro c hc
            rw [getLast_append_right _ _ (show (' ' :: B) ≠ [] by simp)] at hc
            cases B with
            | nil => exact absurd rfl hBne
            | cons b B0 =>
              rw [List.getLast?_cons_cons] at hc
              exact hB c (mem_of_getLastOpt hc)
        · right
          refine ⟨A, B, hr2, ?_⟩
          rw [hr2]
          exact pysplit_join2 hAne hBne hA hB

/-- Idempotence of the shared canonicalizer body, for any hybrid class not
containing the space character. -/
theorem canonWith_idem (cls : Char → Bool) (hsp : cls ' ' = false) (l : List Char) :
    canonWith cls (canonWith cls l) = canonWith cls l := by
  rcases canonWith_out cls hsp l with h | ⟨h1, h2, h3, h4⟩
  · rw [h]
    rfl
  · exact canonWith_fix cls _ h1 h2 h3 h4

/-- The canonicalizer's output contains no hybrid-class character. -/
theorem canonWith_no_cls (cls : Char → Bool) (hsp : cls ' ' = false) (l : List Char) :
    ∀ c ∈ canonWith cls l, cls c = false := by
  rcases canonWith_out cls hsp l with h | ⟨h1, _, _, _⟩
  · rw [h]
    intro c hc
    simp at hc
  · exact h1

/-- The canonicalizer's output has at most two whitespace-separated tokens. -/
theorem canonWith_parts_le_two (cls : Char → Bool) (hsp : cls ' ' = false) (l : List Char) :
    (pysplit (canonWith cls l)).length ≤ 2 := by
  rcases canonWith_out cls hsp l with h | ⟨_, _, _, h4⟩
  · rw [h]
    decide
  · rcases h4 with h | ⟨A, B, _, h⟩ <;> rw [h] <;> simp

/-- Claim C4: canonicalization is idempotent.  For every string `s`,
`canon(canon(s)) = canon(s)` holds for both canonicalizers
(`canon_binomial` of enrich_gbif_dwca.py and `_canon_binomial_only` of
plants_ingest.py). -/
theorem C4_canonicalization_idempotent :
    (∀ s : String, canonBinomialStr (canonBinomialStr s) = canonBinomialStr s) ∧
    (∀ s : String, canonBinomialOnlyStr (canonBinomialOnlyStr s) = canonBinomialOnlyStr s) :=
  ⟨fun s => congrArg String.mk (canonWith_idem isHybridDwca (by decide) s.data),
   fun s => congrArg String.mk (canonWith_idem isHybridIngest (by decide) s.data)⟩

/-- Claim C1, counterexample: the claim's token-level canonicalizer (strip a
hybrid-marker token, truncate at the first rank-marker token, keep the
first two remaining tokens) maps "Buxus var. alba" to "Buxus", but the
code's `canon_binomial` maps it to "Buus var.": the `x` of the kept token
`Buxus` is removed by the character-class hybrid substitution, and the
`var.` marker is kept because its trailing word boundary fails before a
space. -/
theorem C1_counterexample :
    claimCanonStr "Buxus var. alba" = "Buxus" ∧
    canonBinomialStr "Buxus var. alba" = "Buus var." ∧
    claimCanonStr "Buxus var. alba" ≠ canonBinomialStr "Buxus var. alba" :=
  ⟨by decide, by decide, by decide⟩

/-- Claim C1 (amended): empty input yields empty output; Scenario A holds
("Saintpaulia ionantha subsp. grandifolia" canonicalizes to "Saintpaulia
ionantha"); the output never contains a hybrid-class character (so every
lowercase `x` is removed, even inside kept tokens, together with trailing
whitespace); the output has at most two whitespace-separated tokens; and
the rank-marker truncation fires only before a word character, so "Buxus
var. alba" becomes "Buus var." (marker kept as second token) and "Rosa
subsp. alba" becomes "Rosa subsp.". -/
theorem C1_canonicalize_spec :
    canonBinomialStr "" = "" ∧
    canonBinomialStr "Saintpaulia ionantha subsp. grandifolia" = "Saintpaulia ionantha" ∧
    (∀ l : List Char, ∀ c ∈ canon_binomial l, isHybridDwca c = false) ∧
    (∀ l : List Char, (pysplit (canon_binomial l)).length ≤ 2) ∧
    canonBinomialStr "Buxus var. alba" = "Buus var." ∧
    canonBinomialStr "Rosa subsp. alba" = "Rosa subsp." :=
  ⟨by decide, by decide,
   fun l => canonWith_no_cls isHybridDwca (by decide) l,
   fun l => canonWith_parts_le_two isHybridDwca (by decide) l,
   by decide, by decide⟩

end Planter
